import Mathlib

/-!
Verification of the FlowScope auto-layout engine
(`src/components/LayoutSelector.tsx`: `applyGridLayout`,
`applyHierarchicalLayout`, `applyForceLayout`).

Modelling conventions:
* JavaScript numbers are modelled exactly: the grid and hierarchical layouts
  perform only field arithmetic, modelled over `ℚ`; the force layout uses
  `Math.sqrt`, modelled over `ℝ` with `Real.sqrt`.
* A JavaScript object (`Record<string, T>`) is modelled as an association
  list with unique keys and insertion order: assignment `obj[k] = v`
  (`recSet`) replaces the value in place when the key exists and appends
  otherwise; `obj[k]` is `recGet`; the in-place mutations
  `obj[k].x += e` of the force loop are `recAdjust`.
* `Set.has` / key-presence tests become decidable list membership.
* Grid column count is a natural number; the theorems about the grid formula
  assume `0 < columns` (JavaScript would produce NaN coordinates for
  `columns = 0`, outside the numeric model).
-/

structure Pt where
  x : ℚ
  y : ℚ
deriving DecidableEq

structure RPt where
  x : ℝ
  y : ℝ

structure NodeRef where
  id : String
  position : Pt
deriving DecidableEq

structure EdgeRef where
  source : String
  target : String
deriving DecidableEq

/-- JS `obj[k]`: first entry with the given key, if any. -/
def recGet {V : Type} : List (String × V) → String → Option V
  | [], _ => none
  | e :: m, k => if e.1 = k then some e.2 else recGet m k

/-- JS `obj[k] = v`: replace in place if the key exists, else append. -/
def recSet {V : Type} : List (String × V) → String → V → List (String × V)
  | [], k, v => [(k, v)]
  | e :: m, k, v => if e.1 = k then (k, v) :: m else e :: recSet m k v

/-- JS `obj[k].x += e` style in-place mutation of an existing entry. -/
def recAdjust {V : Type} : List (String × V) → String → (V → V) → List (String × V)
  | [], _, _ => []
  | e :: m, k, f => (if e.1 = k then (e.1, f e.2) else e) :: recAdjust m k f

/-- `applyGridLayout` (LayoutSelector.tsx lines 125-145): row-major grid. -/
def applyGridLayout (nodes : List NodeRef) (columns : ℕ := 4)
    (nodeWidth : ℚ := 200) (nodeHeight : ℚ := 100)
    (gapX : ℚ := 50) (gapY : ℚ := 50) : List (String × Pt) :=
  nodes.enum.foldl
    (fun positions ie =>
      recSet positions ie.2.id
        ⟨((ie.1 % columns : ℕ) : ℚ) * (nodeWidth + gapX) + 50,
         ((ie.1 / columns : ℕ) : ℚ) * (nodeHeight + gapY) + 50⟩)
    []

/-- Root nodes: nodes with no incoming connection (lines 155-157). -/
def rootNodes (nodes : List NodeRef) (connections : List EdgeRef) : List NodeRef :=
  nodes.filter (fun n => decide (n.id ∉ connections.map EdgeRef.target))

/-- Forward adjacency `children[id]` (lines 159-164): targets of the
connections whose source is `id`, in connection order. -/
def childrenOf (connections : List EdgeRef) (id : String) : List String :=
  (connections.filter (fun c => decide (c.source = id))).map EdgeRef.target

/-- The BFS `while` loop of `applyHierarchicalLayout` (lines 166-183),
with explicit fuel; each loop iteration consumes one unit.  State:
queue of `(id, level)`, visited ids, `levels` in insertion order. -/
def bfsAux (connections : List EdgeRef) :
    ℕ → List (String × ℕ) → List String → List (String × ℕ) → List (String × ℕ)
  | 0, _, _, levels => levels
  | _ + 1, [], _, levels => levels
  | fuel + 1, e :: queue, visited, levels =>
    if e.1 ∈ visited then
      bfsAux connections fuel queue visited levels
    else
      bfsAux connections fuel
        (queue ++ ((childrenOf connections e.1).filter
            (fun c => decide (c ∉ e.1 :: visited))).map (fun c => (c, e.2 + 1)))
        (e.1 :: visited)
        (levels ++ [(e.1, e.2)])

/-- Fuel bound for `bfsAux`: each dequeue consumes one unit; the total
number of enqueues is at most `|roots| + |connections|`. -/
def bfsLevels (nodes : List NodeRef) (connections : List EdgeRef) :
    List (String × ℕ) :=
  bfsAux connections (nodes.length + connections.length)
    ((rootNodes nodes connections).map (fun n => (n.id, 0))) [] []

/-- Lines 185-190: any node without an assigned level is forced to level 0. -/
def backfillLevels (nodes : List NodeRef) (levels : List (String × ℕ)) :
    List (String × ℕ) :=
  nodes.foldl
    (fun levs n => if n.id ∈ levs.map Prod.fst then levs else levs ++ [(n.id, 0)])
    levels

/-- Lines 192-197: group ids by level.  The JS object `nodesPerLevel` has
integer-like keys, which `Object.entries` iterates in ascending numeric
order; since every id is positioned exactly once, the resulting record does
not depend on the group iteration order, so insertion order is used here. -/
def groupByLevel (levels : List (String × ℕ)) : List (ℕ × List String) :=
  levels.foldl
    (fun groups e =>
      if e.2 ∈ groups.map Prod.fst then
        groups.map (fun g => if g.1 = e.2 then (g.1, g.2 ++ [e.1]) else g)
      else groups ++ [(e.2, [e.1])])
    []

/-- Lines 199-211: place the nodes of one level, horizontally centered. -/
def placeLevel (positions : List (String × Pt)) (level : ℕ)
    (nodeIds : List String) (levelHeight nodeSpacing : ℚ) : List (String × Pt) :=
  nodeIds.enum.foldl
    (fun pos ie =>
      recSet pos ie.2
        ⟨-(((nodeIds.length : ℚ) - 1) * nodeSpacing) / 2
            + (ie.1 : ℚ) * nodeSpacing + 400,
         (level : ℚ) * levelHeight + 50⟩)
    positions

/-- Groups of node ids by level as computed inside `applyHierarchicalLayout`. -/
def hierGroups (nodes : List NodeRef) (connections : List EdgeRef) :
    List (ℕ × List String) :=
  groupByLevel (backfillLevels nodes (bfsLevels nodes connections))

/-- `applyHierarchicalLayout` (lines 147-214). -/
def applyHierarchicalLayout (nodes : List NodeRef) (connections : List EdgeRef)
    (levelHeight : ℚ := 150) (nodeSpacing : ℚ := 200) : List (String × Pt) :=
  (hierGroups nodes connections).foldl
    (fun positions g => placeLevel positions g.1 g.2 levelHeight nodeSpacing)
    []

/-! ### Force-directed layout (lines 216-286), over `ℝ` -/

/-- State of the force simulation: the `positions` and `velocities` records. -/
structure ForceState where
  positions : List (String × RPt)
  velocities : List (String × RPt)

/-- Line 245: `const dist = Math.sqrt(dx*dx + dy*dy) || 1`.  JS `||` replaces
a falsy left operand (here: exactly `0`) with `1`. -/
noncomputable def repulsionDist (dx dy : ℝ) : ℝ :=
  if Real.sqrt (dx * dx + dy * dy) = 0 then 1 else Real.sqrt (dx * dx + dy * dy)

/-- Lines 226-229: seed positions from each node's current position,
velocities at the origin. -/
def forceInit (nodes : List NodeRef) : ForceState where
  positions := nodes.foldl
    (fun m n => recSet m n.id ⟨(n.position.x : ℝ), (n.position.y : ℝ)⟩) []
  velocities := nodes.foldl (fun m n => recSet m n.id ⟨0, 0⟩) []

/-- Lines 238-251: all-pairs repulsion.  Reads the (unchanged) positions
record, accumulates into velocities.  A missing key cannot occur for ids
taken from `nodes` (positions are seeded from `nodes`); the `.getD` default
is never consulted in reachable states. -/
noncomputable def repulsionPhase (nodes : List NodeRef) (s : ForceState) : ForceState :=
  { s with
    velocities := nodes.foldl
      (fun vel nodeA => nodes.foldl
        (fun vel2 nodeB =>
          if nodeA.id = nodeB.id then vel2
          else
            let pA := (recGet s.positions nodeA.id).getD ⟨0, 0⟩
            let pB := (recGet s.positions nodeB.id).getD ⟨0, 0⟩
            let dx := pB.x - pA.x
            let dy := pB.y - pA.y
            let dist := repulsionDist dx dy
            let force := 5000 / (dist * dist)
            recAdjust vel2 nodeA.id
              (fun v => ⟨v.x - dx / dist * force, v.y - dy / dist * force⟩))
        vel)
      s.velocities }

/-- Lines 253-266: attraction along edges; an edge with either endpoint
missing from the positions record is skipped (`if (!posA || !posB) return`). -/
noncomputable def attractionPhase (connections : List EdgeRef) (s : ForceState) :
    ForceState :=
  { s with
    velocities := connections.foldl
      (fun vel c =>
        match recGet s.positions c.source, recGet s.positions c.target with
        | some posA, some posB =>
          let dx := posB.x - posA.x
          let dy := posB.y - posA.y
          recAdjust
            (recAdjust vel c.source
              (fun v => ⟨v.x + dx * 0.05, v.y + dy * 0.05⟩))
            c.target
            (fun v => ⟨v.x - dx * 0.05, v.y - dy * 0.05⟩)
        | _, _ => vel)
      s.velocities }

/-- Lines 268-274: pull every node toward the fixed center `(400, 300)`. -/
noncomputable def gravityPhase (nodes : List NodeRef) (s : ForceState) : ForceState :=
  { s with
    velocities := nodes.foldl
      (fun vel node =>
        let p := (recGet s.positions node.id).getD ⟨0, 0⟩
        recAdjust vel node.id
          (fun v => ⟨v.x + (400 - p.x) * 0.01, v.y + (300 - p.y) * 0.01⟩))
      s.velocities }

/-- Lines 276-282: per node, position += velocity, then velocity *= 0.9. -/
noncomputable def integratePhase (nodes : List NodeRef) (s : ForceState) : ForceState :=
  nodes.foldl
    (fun st node =>
      let v := (recGet st.velocities node.id).getD ⟨0, 0⟩
      { positions := recAdjust st.positions node.id
          (fun p => ⟨p.x + v.x, p.y + v.y⟩),
        velocities := recAdjust st.velocities node.id
          (fun w => ⟨w.x * 0.9, w.y * 0.9⟩) })
    s

/-- One iteration of the `for` loop (lines 237-283). -/
noncomputable def forceStep (nodes : List NodeRef) (connections : List EdgeRef)
    (s : ForceState) : ForceState :=
  integratePhase nodes
    (gravityPhase nodes (attractionPhase connections (repulsionPhase nodes s)))

/-- The simulation state after `k` iterations. -/
noncomputable def forceState (nodes : List NodeRef) (connections : List EdgeRef) :
    ℕ → ForceState
  | 0 => forceInit nodes
  | k + 1 => forceStep nodes connections (forceState nodes connections k)

/-- `applyForceLayout` (lines 216-286). -/
noncomputable def applyForceLayout (nodes : List NodeRef)
    (connections : List EdgeRef) (iterations : ℕ := 100) : List (String × RPt) :=
  (forceState nodes connections iterations).positions

/-- The per-pair repulsion velocity contribution (lines 243-249), as one
vector: what the loop subtracts from the velocity of the node at `p` due to
the node at `q`. -/
noncomputable def repKick (p q : RPt) : RPt :=
  ⟨(q.x - p.x) / repulsionDist (q.x - p.x) (q.y - p.y)
      * (5000 / (repulsionDist (q.x - p.x) (q.y - p.y)
          * repulsionDist (q.x - p.x) (q.y - p.y))),
   (q.y - p.y) / repulsionDist (q.x - p.x) (q.y - p.y)
      * (5000 / (repulsionDist (q.x - p.x) (q.y - p.y)
          * repulsionDist (q.x - p.x) (q.y - p.y)))⟩

/-- Directed walks over the connection list: `Reaches connections x y k`
holds when there is a walk of `k` edges from `x` to `y`. -/
inductive Reaches (connections : List EdgeRef) : String → String → ℕ → Prop where
  | refl (x : String) : Reaches connections x x 0
  | step {x y : String} {k : ℕ} (h : Reaches connections x y k) {c : EdgeRef}
      (hc : c ∈ connections) (hy : c.source = y) :
      Reaches connections x c.target (k + 1)

/-- Ids of the root nodes (nodes with no incoming connection). -/
def rootIds (nodes : List NodeRef) (connections : List EdgeRef) : List String :=
  (rootNodes nodes connections).map NodeRef.id

/-- Inductive invariant of the BFS loop state, for root id list `R`:
the queue is sorted by level with any two levels at most 1 apart, every
queue entry is justified by a walk from a root, visited ids are exactly the
assigned ids, assigned levels are exact shortest-walk distances, unvisited
roots sit in the queue at level 0, and every connection out of an assigned
node with unvisited target has a queue entry one level deeper. -/
structure BfsInv (connections : List EdgeRef) (R : List String)
    (queue : List (String × ℕ)) (visited : List String)
    (levels : List (String × ℕ)) : Prop where
  sorted : List.Sorted (· ≤ ·) (queue.map Prod.snd)
  gap : ∀ a ∈ queue.map Prod.snd, ∀ b ∈ queue.map Prod.snd, a ≤ b + 1
  sound : ∀ e ∈ queue, ∃ r ∈ R, Reaches connections r e.1 e.2
  visIff : ∀ x, x ∈ visited ↔ x ∈ levels.map Prod.fst
  nodupKeys : (levels.map Prod.fst).Nodup
  exactLvl : ∀ e ∈ levels,
    (∃ r ∈ R, Reaches connections r e.1 e.2)
      ∧ ∀ k, (∃ r ∈ R, Reaches connections r e.1 k) → e.2 ≤ k
  rootsQueued : ∀ r ∈ R, r ∉ visited → (r, 0) ∈ queue
  frontier : ∀ e ∈ levels, ∀ c ∈ connections, c.source = e.1 →
    c.target ∉ visited → (c.target, e.2 + 1) ∈ queue

/-- Decreasing measure of the BFS loop: queue length plus the number of
connections whose source has not been visited. -/
def bfsPot (connections : List EdgeRef) (queue : List (String × ℕ))
    (visited : List String) : ℕ :=
  queue.length
    + (connections.filter (fun c => decide (c.source ∉ visited))).length

/-! ### Record (association list) lemmas -/

@[simp]
theorem recGet_nil {V : Type} (k : String) : recGet ([] : List (String × V)) k = none :=
  rfl

theorem recGet_cons {V : Type} (e : String × V) (m : List (String × V)) (k : String) :
    recGet (e :: m) k = if e.1 = k then some e.2 else recGet m k :=
  rfl

theorem recGet_eq_none_iff {V : Type} (m : List (String × V)) (k : String) :
    recGet m k = none ↔ k ∉ m.map Prod.fst := by
  induction m with
  | nil => simp
  | cons e m ih =>
    rw [recGet_cons]
    by_cases h : e.1 = k
    · simp [h]
    · simp only [if_neg h, ih, List.map_cons, List.mem_cons]
      constructor
      · intro hn hk
        rcases hk with hk | hk
        · exact h hk.symm
        · exact hn hk
      · intro hn hk
        exact hn (Or.inr hk)

theorem mem_keys_recSet {V : Type} (m : List (String × V)) (k : String) (v : V)
    (x : String) :
    x ∈ (recSet m k v).map Prod.fst ↔ x ∈ m.map Prod.fst ∨ x = k := by
  induction m with
  | nil => simp [recSet]
  | cons e m ih =>
    by_cases h : e.1 = k
    · subst h
      simp [recSet]
      tauto
    · simp only [recSet, if_neg h, List.map_cons, List.mem_cons, ih]
      tauto

theorem recGet_recSet_self {V : Type} (m : List (String × V)) (k : String) (v : V) :
    recGet (recSet m k v) k = some v := by
  induction m with
  | nil => simp [recSet, recGet_cons]
  | cons e m ih =>
    by_cases h : e.1 = k
    · simp [recSet, h, recGet_cons]
    · simp [recSet, h, recGet_cons, ih]

theorem recGet_recSet_ne {V : Type} (m : List (String × V)) (k k' : String) (v : V)
    (h : k' ≠ k) : recGet (recSet m k v) k' = recGet m k' := by
  have h' : k ≠ k' := fun he => h he.symm
  induction m with
  | nil => simp [recSet, recGet_cons, h']
  | cons e m ih =>
    by_cases he : e.1 = k
    · subst he
      simp [recSet, recGet_cons, h']
    · simp only [recSet, if_neg he, recGet_cons, ih]

theorem recSet_of_not_mem {V : Type} (m : List (String × V)) (k : String) (v : V)
    (h : k ∉ m.map Prod.fst) : recSet m k v = m ++ [(k, v)] := by
  induction m with
  | nil => simp [recSet]
  | cons e m ih =>
    simp only [List.map_cons, List.mem_cons] at h
    push_neg at h
    have he : e.1 ≠ k := fun hx => h.1 hx.symm
    simp [recSet, he, ih h.2]

@[simp]
theorem keys_recAdjust {V : Type} (m : List (String × V)) (k : String) (f : V → V) :
    (recAdjust m k f).map Prod.fst = m.map Prod.fst := by
  induction m with
  | nil => rfl
  | cons e m ih =>
    by_cases h : e.1 = k
    · simp [recAdjust, h, ih]
    · simp [recAdjust, h, ih]

theorem recGet_recAdjust {V : Type} (m : List (String × V)) (k : String) (f : V → V) :
    recGet (recAdjust m k f) k = (recGet m k).map f := by
  induction m with
  | nil => rfl
  | cons e m ih =>
    by_cases h : e.1 = k
    · simp [recAdjust, h, recGet_cons]
    · simp [recAdjust, h, recGet_cons, ih]

theorem recGet_recAdjust_ne {V : Type} (m : List (String × V)) (k k' : String)
    (f : V → V) (h : k' ≠ k) : recGet (recAdjust m k f) k' = recGet m k' := by
  have h' : k ≠ k' := fun he => h he.symm
  induction m with
  | nil => rfl
  | cons e m ih =>
    by_cases he : e.1 = k
    · subst he
      simp [recAdjust, recGet_cons, h', ih]
    · simp [recAdjust, he, recGet_cons, ih]

/-- Key-set of a fold of `recSet` assignments. -/
theorem mem_keys_foldl_recSet {α V : Type} (key : α → String) (val : α → V)
    (l : List α) (m : List (String × V)) (x : String) :
    x ∈ ((l.foldl (fun acc a => recSet acc (key a) (val a)) m).map Prod.fst) ↔
      x ∈ m.map Prod.fst ∨ x ∈ l.map key := by
  induction l generalizing m with
  | nil => simp
  | cons a l ih =>
    simp only [List.foldl_cons, ih, mem_keys_recSet, List.map_cons, List.mem_cons]
    tauto

/-- A fold of `recSet` assignments with fresh, pairwise distinct keys appends. -/
theorem foldl_recSet_eq_append {α V : Type} (key : α → String) (val : α → V)
    (l : List α) (m : List (String × V)) (hd : (l.map key).Nodup)
    (hm : ∀ a ∈ l, key a ∉ m.map Prod.fst) :
    l.foldl (fun acc a => recSet acc (key a) (val a)) m
      = m ++ l.map (fun a => (key a, val a)) := by
  induction l generalizing m with
  | nil => simp
  | cons a l ih =>
    simp only [List.map_cons, List.nodup_cons] at hd
    rw [List.foldl_cons, recSet_of_not_mem _ _ _ (hm a (List.mem_cons_self a l)),
      ih (m ++ [(key a, val a)]) hd.2]
    · simp
    · intro b hb
      simp only [List.map_append, List.mem_append, List.map_cons]
      rintro (h | h)
      · exact hm b (List.mem_cons_of_mem a hb) h
      · simp only [List.map_nil, List.mem_singleton] at h
        exact hd.1 (h ▸ List.mem_map_of_mem key hb)

theorem recGet_of_mem_nodup {V : Type} (m : List (String × V)) (k : String) (v : V)
    (hnd : (m.map Prod.fst).Nodup) (hmem : (k, v) ∈ m) : recGet m k = some v := by
  induction m with
  | nil => simp at hmem
  | cons e m ih =>
    simp only [List.map_cons, List.nodup_cons] at hnd
    rcases List.mem_cons.mp hmem with h | h
    · simp [← h, recGet_cons]
    · have hk : e.1 ≠ k := by
        intro he
        exact hnd.1 (he ▸ List.mem_map_of_mem Prod.fst h)
      simp [recGet_cons, hk, ih hnd.2 h]

/-! ### Empty input (C9) -/

theorem bfsAux_nil_queue (connections : List EdgeRef) (fuel : ℕ)
    (visited : List String) (levels : List (String × ℕ)) :
    bfsAux connections fuel [] visited levels = levels := by
  cases fuel <;> rfl

theorem forceState_nil (connections : List EdgeRef) (k : ℕ) :
    forceState [] connections k = ⟨[], []⟩ := by
  induction k with
  | zero => rfl
  | succ k ih =>
    have hatt : ∀ (cs : List EdgeRef),
        attractionPhase cs (⟨[], []⟩ : ForceState) = ⟨[], []⟩ := by
      intro cs
      have : ∀ (vel : List (String × RPt)), cs.foldl
          (fun vel c =>
            match recGet ([] : List (String × RPt)) c.source,
                recGet ([] : List (String × RPt)) c.target with
            | some posA, some posB =>
              let dx := posB.x - posA.x
              let dy := posB.y - posA.y
              recAdjust
                (recAdjust vel c.source
                  (fun v => ⟨v.x + dx * 0.05, v.y + dy * 0.05⟩))
                c.target
                (fun v => ⟨v.x - dx * 0.05, v.y - dy * 0.05⟩)
            | _, _ => vel) vel = vel := by
        intro vel
        induction cs generalizing vel with
        | nil => rfl
        | cons c cs ihc => exact ihc vel
      simp only [attractionPhase]
      exact congrArg (ForceState.mk []) (this [])
    rw [forceState, ih, forceStep]
    rw [show repulsionPhase [] (⟨[], []⟩ : ForceState) = ⟨[], []⟩ from rfl,
      hatt, show gravityPhase [] (⟨[], []⟩ : ForceState) = ⟨[], []⟩ from rfl]
    rfl

/-! ### Grid layout characterization (C5) -/

theorem applyGridLayout_eq_map (nodes : List NodeRef) (columns : ℕ)
    (nodeWidth nodeHeight gapX gapY : ℚ) (hnd : (nodes.map NodeRef.id).Nodup) :
    applyGridLayout nodes columns nodeWidth nodeHeight gapX gapY
      = nodes.enum.map (fun ie => (ie.2.id,
          (⟨((ie.1 % columns : ℕ) : ℚ) * (nodeWidth + gapX) + 50,
            ((ie.1 / columns : ℕ) : ℚ) * (nodeHeight + gapY) + 50⟩ : Pt))) := by
  have hkeys : nodes.enum.map (fun ie => ie.2.id) = nodes.map NodeRef.id := by
    rw [show (fun ie : ℕ × NodeRef => ie.2.id) = NodeRef.id ∘ Prod.snd from rfl,
      ← List.map_map, List.enum_map_snd]
  rw [applyGridLayout,
    foldl_recSet_eq_append (fun ie => ie.2.id)
      (fun ie => (⟨((ie.1 % columns : ℕ) : ℚ) * (nodeWidth + gapX) + 50,
        ((ie.1 / columns : ℕ) : ℚ) * (nodeHeight + gapY) + 50⟩ : Pt))
      nodes.enum [] (by rw [hkeys]; exact hnd) (by simp)]
  simp

/-- C5: `applyGridLayout` assigns the node at input index `i` to column
`i % columns` and row `i / columns`, at pixel position
`(col*(nodeWidth+gapX)+50, row*(nodeHeight+gapY)+50)`, consulting no edges
(the function takes none).  Stated over the documented input domain:
unique node ids and a positive column count. -/
theorem c5_grid_formula (nodes : List NodeRef) (columns : ℕ)
    (nodeWidth nodeHeight gapX gapY : ℚ) (hnd : (nodes.map NodeRef.id).Nodup)
    (_hc : 0 < columns) (i : ℕ) (hi : i < nodes.length) :
    recGet (applyGridLayout nodes columns nodeWidth nodeHeight gapX gapY)
        (nodes.get ⟨i, hi⟩).id
      = some ⟨((i % columns : ℕ) : ℚ) * (nodeWidth + gapX) + 50,
          ((i / columns : ℕ) : ℚ) * (nodeHeight + gapY) + 50⟩ := by
  rw [applyGridLayout_eq_map nodes columns nodeWidth nodeHeight gapX gapY hnd]
  apply recGet_of_mem_nodup
  · rw [List.map_map,
      show (Prod.fst ∘ fun ie : ℕ × NodeRef => (ie.2.id,
        (⟨((ie.1 % columns : ℕ) : ℚ) * (nodeWidth + gapX) + 50,
          ((ie.1 / columns : ℕ) : ℚ) * (nodeHeight + gapY) + 50⟩ : Pt)))
        = (NodeRef.id ∘ Prod.snd) from rfl, ← List.map_map, List.enum_map_snd]
    exact hnd
  · refine List.mem_map.mpr ⟨(i, nodes.get ⟨i, hi⟩), ?_, rfl⟩
    rw [List.mk_mem_enum_iff_getElem?]
    exact List.getElem?_eq_getElem hi

/-- C5 witness: with defaults (`columns = 4`), the node at index 4 lands at
column 0, row 1, i.e. at `(50, 200)` — the spec's concrete test vector. -/
theorem c5_grid_formula_witness :
    ([(⟨("a"), ⟨0, 0⟩⟩ : NodeRef), ⟨("b"), ⟨1, 1⟩⟩, ⟨("c"), ⟨2, 2⟩⟩,
        ⟨("d"), ⟨3, 3⟩⟩, ⟨("e"), ⟨4, 4⟩⟩].map NodeRef.id).Nodup
      ∧ 0 < 4
      ∧ recGet (applyGridLayout [(⟨("a"), ⟨0, 0⟩⟩ : NodeRef), ⟨("b"), ⟨1, 1⟩⟩,
          ⟨("c"), ⟨2, 2⟩⟩, ⟨("d"), ⟨3, 3⟩⟩, ⟨("e"), ⟨4, 4⟩⟩] 4 200 100 50 50) ("e")
        = some ⟨50, 200⟩ := by
  refine ⟨by decide, by decide, ?_⟩
  have h := c5_grid_formula [(⟨("a"), ⟨0, 0⟩⟩ : NodeRef), ⟨("b"), ⟨1, 1⟩⟩,
    ⟨("c"), ⟨2, 2⟩⟩, ⟨("d"), ⟨3, 3⟩⟩, ⟨("e"), ⟨4, 4⟩⟩] 4 200 100 50 50
    (by decide) (by decide) 4 (by decide)
  norm_num [List.get] at h
  convert h using 2

/-! ### Seed-position independence of grid and hierarchical layout (C10) -/

theorem filter_map_id (l : List NodeRef) (q : String → Bool) :
    (l.filter (fun n => q n.id)).map NodeRef.id = (l.map NodeRef.id).filter q := by
  induction l with
  | nil => rfl
  | cons n l ih =>
    rw [List.map_cons, List.filter_cons, List.filter_cons]
    cases hq : q n.id
    · simpa [hq] using ih
    · simpa [hq] using ih

theorem rootNodes_map_id (nodes : List NodeRef) (connections : List EdgeRef) :
    (rootNodes nodes connections).map NodeRef.id
      = (nodes.map NodeRef.id).filter
          (fun s => decide (s ∉ connections.map EdgeRef.target)) := by
  rw [rootNodes]
  exact filter_map_id nodes (fun s => decide (s ∉ connections.map EdgeRef.target))

theorem bfsLevels_eq_of_ids (nodes1 nodes2 : List NodeRef)
    (connections : List EdgeRef)
    (hid : nodes1.map NodeRef.id = nodes2.map NodeRef.id) :
    bfsLevels nodes1 connections = bfsLevels nodes2 connections := by
  have hlen : nodes1.length = nodes2.length := by
    have := congrArg List.length hid
    simpa using this
  have hroot : (rootNodes nodes1 connections).map (fun n => (n.id, 0))
      = (rootNodes nodes2 connections).map (fun n => (n.id, 0)) := by
    rw [show (fun n : NodeRef => (n.id, 0)) = ((fun s => (s, 0)) ∘ NodeRef.id)
        from rfl, ← List.map_map, ← List.map_map, rootNodes_map_id,
      rootNodes_map_id, hid]
  rw [bfsLevels, bfsLevels, hlen, hroot]

theorem backfillLevels_eq_of_ids (nodes1 nodes2 : List NodeRef)
    (levels : List (String × ℕ))
    (hid : nodes1.map NodeRef.id = nodes2.map NodeRef.id) :
    backfillLevels nodes1 levels = backfillLevels nodes2 levels := by
  have key : ∀ nodes : List NodeRef, backfillLevels nodes levels
      = (nodes.map NodeRef.id).foldl
          (fun levs s => if s ∈ levs.map Prod.fst then levs else levs ++ [(s, 0)])
          levels := by
    intro nodes
    rw [backfillLevels, List.foldl_map]
  rw [key, key, hid]

theorem applyGridLayout_by_ids (nodes : List NodeRef) (columns : ℕ)
    (nodeWidth nodeHeight gapX gapY : ℚ) :
    applyGridLayout nodes columns nodeWidth nodeHeight gapX gapY
      = (nodes.map NodeRef.id).enum.foldl
          (fun acc ie => recSet acc ie.2
            ⟨((ie.1 % columns : ℕ) : ℚ) * (nodeWidth + gapX) + 50,
             ((ie.1 / columns : ℕ) : ℚ) * (nodeHeight + gapY) + 50⟩) [] := by
  rw [applyGridLayout, List.enum_map, List.foldl_map]
  rfl

/-- C10: `applyGridLayout` and `applyHierarchicalLayout` never read the seed
positions carried by the input nodes: two node lists with identical ids in
identical order produce identical outputs, whatever their positions. -/
theorem c10_seed_independence (nodes1 nodes2 : List NodeRef)
    (connections : List EdgeRef) (columns : ℕ)
    (nodeWidth nodeHeight gapX gapY levelHeight nodeSpacing : ℚ)
    (hid : nodes1.map NodeRef.id = nodes2.map NodeRef.id) :
    applyGridLayout nodes1 columns nodeWidth nodeHeight gapX gapY
        = applyGridLayout nodes2 columns nodeWidth nodeHeight gapX gapY
      ∧ applyHierarchicalLayout nodes1 connections levelHeight nodeSpacing
        = applyHierarchicalLayout nodes2 connections levelHeight nodeSpacing := by
  constructor
  · rw [applyGridLayout_by_ids, applyGridLayout_by_ids, hid]
  · rw [applyHierarchicalLayout, applyHierarchicalLayout, hierGroups, hierGroups,
      bfsLevels_eq_of_ids nodes1 nodes2 connections hid,
      backfillLevels_eq_of_ids nodes1 nodes2 _ hid]

/-- C10 witness: same ids, different seed positions, identical outputs. -/
theorem c10_seed_independence_witness :
    ([(⟨("A"), ⟨0, 0⟩⟩ : NodeRef), ⟨("B"), ⟨1, 2⟩⟩].map NodeRef.id
        = [(⟨("A"), ⟨500, 77⟩⟩ : NodeRef), ⟨("B"), ⟨-3, 9⟩⟩].map NodeRef.id)
      ∧ applyGridLayout [(⟨("A"), ⟨0, 0⟩⟩ : NodeRef), ⟨("B"), ⟨1, 2⟩⟩] 4 200 100 50 50
        = applyGridLayout [(⟨("A"), ⟨500, 77⟩⟩ : NodeRef), ⟨("B"), ⟨-3, 9⟩⟩] 4 200 100 50 50
      ∧ applyHierarchicalLayout [(⟨("A"), ⟨0, 0⟩⟩ : NodeRef), ⟨("B"), ⟨1, 2⟩⟩]
          [⟨("A"), ("B")⟩] 150 200
        = applyHierarchicalLayout [(⟨("A"), ⟨500, 77⟩⟩ : NodeRef), ⟨("B"), ⟨-3, 9⟩⟩]
          [⟨("A"), ("B")⟩] 150 200 := by
  have h := c10_seed_independence [(⟨("A"), ⟨0, 0⟩⟩ : NodeRef), ⟨("B"), ⟨1, 2⟩⟩]
    [(⟨("A"), ⟨500, 77⟩⟩ : NodeRef), ⟨("B"), ⟨-3, 9⟩⟩]
    [⟨("A"), ("B")⟩] 4 200 100 50 50 150 200 (by decide)
  exact ⟨by decide, h.1, h.2⟩

/-! ### Key sets of the three layouts (C1) -/

theorem keys_foldl_of_preserved {α V : Type}
    (f : List (String × V) → α → List (String × V))
    (h : ∀ m a, (f m a).map Prod.fst = m.map Prod.fst) :
    ∀ (l : List α) (m : List (String × V)),
      (l.foldl f m).map Prod.fst = m.map Prod.fst := by
  intro l
  induction l with
  | nil => intro m; rfl
  | cons a l ih => intro m; rw [List.foldl_cons, ih, h]

theorem keys_repulsionPhase (nodes : List NodeRef) (s : ForceState) :
    (repulsionPhase nodes s).positions = s.positions
      ∧ (repulsionPhase nodes s).velocities.map Prod.fst
        = s.velocities.map Prod.fst := by
  refine ⟨rfl, ?_⟩
  apply keys_foldl_of_preserved
  intro m a
  apply keys_foldl_of_preserved
  intro m2 b
  by_cases hab : a.id = b.id
  · simp [hab]
  · simp [hab]

theorem keys_attractionPhase (connections : List EdgeRef) (s : ForceState) :
    (attractionPhase connections s).positions = s.positions
      ∧ (attractionPhase connections s).velocities.map Prod.fst
        = s.velocities.map Prod.fst := by
  refine ⟨rfl, ?_⟩
  apply keys_foldl_of_preserved
  intro m c
  cases recGet s.positions c.source <;> cases recGet s.positions c.target <;> simp

theorem keys_gravityPhase (nodes : List NodeRef) (s : ForceState) :
    (gravityPhase nodes s).positions = s.positions
      ∧ (gravityPhase nodes s).velocities.map Prod.fst
        = s.velocities.map Prod.fst := by
  refine ⟨rfl, ?_⟩
  apply keys_foldl_of_preserved
  intro m a
  simp

theorem keys_integratePhase (nodes : List NodeRef) :
    ∀ s : ForceState,
      (integratePhase nodes s).positions.map Prod.fst = s.positions.map Prod.fst
        ∧ (integratePhase nodes s).velocities.map Prod.fst
          = s.velocities.map Prod.fst := by
  induction nodes with
  | nil => intro s; exact ⟨rfl, rfl⟩
  | cons n nodes ih =>
    intro s
    rw [integratePhase, List.foldl_cons, ← integratePhase]
    refine ⟨((ih _).1).trans ?_, ((ih _).2).trans ?_⟩ <;> simp

theorem keys_forceState (nodes : List NodeRef) (connections : List EdgeRef)
    (k : ℕ) :
    (forceState nodes connections k).positions.map Prod.fst
        = (forceInit nodes).positions.map Prod.fst
      ∧ (forceState nodes connections k).velocities.map Prod.fst
        = (forceInit nodes).velocities.map Prod.fst := by
  induction k with
  | zero => exact ⟨rfl, rfl⟩
  | succ k ih =>
    have h1 := keys_repulsionPhase nodes (forceState nodes connections k)
    have h2 := keys_attractionPhase connections
      (repulsionPhase nodes (forceState nodes connections k))
    have h3 := keys_gravityPhase nodes
      (attractionPhase connections
        (repulsionPhase nodes (forceState nodes connections k)))
    have h4 := keys_integratePhase nodes
      (gravityPhase nodes (attractionPhase connections
        (repulsionPhase nodes (forceState nodes connections k))))
    rw [forceState, forceStep]
    constructor
    · rw [h4.1, h3.1, h2.1, h1.1, ih.1]
    · rw [h4.2, h3.2, h2.2, h1.2, ih.2]

theorem mem_keys_forceInit (nodes : List NodeRef) (x : String) :
    (x ∈ (forceInit nodes).positions.map Prod.fst ↔ x ∈ nodes.map NodeRef.id)
      ∧ (x ∈ (forceInit nodes).velocities.map Prod.fst
          ↔ x ∈ nodes.map NodeRef.id) := by
  constructor
  · rw [forceInit]
    rw [mem_keys_foldl_recSet NodeRef.id
      (fun n => (⟨(n.position.x : ℝ), (n.position.y : ℝ)⟩ : RPt)) nodes [] x]
    simp
  · rw [forceInit]
    rw [mem_keys_foldl_recSet NodeRef.id (fun _ => (⟨0, 0⟩ : RPt)) nodes [] x]
    simp

theorem mem_keys_backfill (nodes : List NodeRef) (levels : List (String × ℕ))
    (x : String) :
    x ∈ (backfillLevels nodes levels).map Prod.fst
      ↔ x ∈ levels.map Prod.fst ∨ x ∈ nodes.map NodeRef.id := by
  induction nodes generalizing levels with
  | nil => simp [backfillLevels]
  | cons n nodes ih =>
    rw [backfillLevels, List.foldl_cons, ← backfillLevels, ih]
    by_cases h : n.id ∈ levels.map Prod.fst
    · rw [if_pos h]
      simp only [List.map_cons, List.mem_cons]
      constructor
      · rintro (hx | hx)
        · exact Or.inl hx
        · exact Or.inr (Or.inr hx)
      · rintro (hx | hx | hx)
        · exact Or.inl hx
        · exact Or.inl (hx ▸ h)
        · exact Or.inr hx
    · rw [if_neg h]
      simp only [List.map_append, List.mem_append, List.map_cons, List.mem_cons,
        List.map_nil, List.mem_singleton]
      tauto

theorem bfs_keys_pred (connections : List EdgeRef) (P : String → Prop)
    (hconn : ∀ c ∈ connections, P c.target) :
    ∀ (fuel : ℕ) (queue : List (String × ℕ)) (visited : List String)
      (levels : List (String × ℕ)),
      (∀ e ∈ queue, P e.1) → (∀ x ∈ levels.map Prod.fst, P x) →
      ∀ x ∈ (bfsAux connections fuel queue visited levels).map Prod.fst, P x := by
  intro fuel
  induction fuel with
  | zero => intro q vis levs _ hlevs; exact hlevs
  | succ fuel ih =>
    intro q vis levs hq hlevs
    match q with
    | [] => exact hlevs
    | e :: q =>
      rw [bfsAux]
      by_cases hv : e.1 ∈ vis
      · rw [if_pos hv]
        exact ih q vis levs (fun a ha => hq a (List.mem_cons_of_mem e ha)) hlevs
      · rw [if_neg hv]
        apply ih
        · intro a ha
          rcases List.mem_append.mp ha with ha | ha
          · exact hq a (List.mem_cons_of_mem e ha)
          · rcases List.mem_map.mp ha with ⟨c, hc, hca⟩
            rcases List.mem_map.mp (List.mem_of_mem_filter hc) with ⟨cn, hcn, hcnc⟩
            have : P c := hcnc ▸ hconn cn (List.mem_of_mem_filter hcn)
            rw [← hca]
            exact this
        · intro x hx
          simp only [List.map_append, List.mem_append, List.map_cons, List.map_nil,
            List.mem_singleton] at hx
          rcases hx with hx | hx
          · exact hlevs x hx
          · exact hx ▸ hq e (List.mem_cons_self e q)

theorem mem_keys_placeLevel (pos : List (String × Pt)) (level : ℕ)
    (nodeIds : List String) (levelHeight nodeSpacing : ℚ) (x : String) :
    x ∈ (placeLevel pos level nodeIds levelHeight nodeSpacing).map Prod.fst
      ↔ x ∈ pos.map Prod.fst ∨ x ∈ nodeIds := by
  rw [placeLevel]
  rw [mem_keys_foldl_recSet (fun ie : ℕ × String => ie.2)
    (fun ie => (⟨-(((nodeIds.length : ℚ) - 1) * nodeSpacing) / 2
        + (ie.1 : ℚ) * nodeSpacing + 400,
      (level : ℚ) * levelHeight + 50⟩ : Pt)) nodeIds.enum pos x]
  have hsnd : nodeIds.enum.map (fun ie : ℕ × String => ie.2) = nodeIds :=
    List.enum_map_snd nodeIds
  rw [hsnd]

theorem mem_keys_hier_fold (groups : List (ℕ × List String))
    (levelHeight nodeSpacing : ℚ) :
    ∀ (pos : List (String × Pt)) (x : String),
      x ∈ ((groups.foldl
            (fun positions g => placeLevel positions g.1 g.2 levelHeight nodeSpacing)
            pos).map Prod.fst)
        ↔ x ∈ pos.map Prod.fst ∨ ∃ g ∈ groups, x ∈ g.2 := by
  induction groups with
  | nil => intro pos x; simp
  | cons g groups ih =>
    intro pos x
    rw [List.foldl_cons, ih, mem_keys_placeLevel]
    simp only [List.mem_cons]
    constructor
    · rintro ((hx | hx) | ⟨g2, hg2, hx⟩)
      · exact Or.inl hx
      · exact Or.inr ⟨g, Or.inl rfl, hx⟩
      · exact Or.inr ⟨g2, Or.inr hg2, hx⟩
    · rintro (hx | ⟨g2, (hg2 | hg2), hx⟩)
      · exact Or.inl (Or.inl hx)
      · exact Or.inl (Or.inr (hg2 ▸ hx))
      · exact Or.inr ⟨g2, hg2, hx⟩

theorem mem_groupByLevel (levels : List (String × ℕ)) (x : String) :
    (∃ g ∈ groupByLevel levels, x ∈ g.2) ↔ x ∈ levels.map Prod.fst := by
  have main : ∀ (levs : List (String × ℕ)) (acc : List (ℕ × List String)),
      (∃ g ∈ levs.foldl
          (fun groups e =>
            if e.2 ∈ groups.map Prod.fst then
              groups.map (fun g => if g.1 = e.2 then (g.1, g.2 ++ [e.1]) else g)
            else groups ++ [(e.2, [e.1])])
          acc, x ∈ g.2)
        ↔ (∃ g ∈ acc, x ∈ g.2) ∨ x ∈ levs.map Prod.fst := by
    intro levs
    induction levs with
    | nil => intro acc; simp
    | cons e levs ih =>
      intro acc
      rw [List.foldl_cons, ih]
      by_cases hl : e.2 ∈ acc.map Prod.fst
      · rw [if_pos hl]
        have hstep : (∃ g ∈ acc.map
              (fun g => if g.1 = e.2 then (g.1, g.2 ++ [e.1]) else g), x ∈ g.2)
            ↔ (∃ g ∈ acc, x ∈ g.2) ∨ x = e.1 := by
          constructor
          · rintro ⟨g2, hg2, hx⟩
            rcases List.mem_map.mp hg2 with ⟨g, hg, hgg⟩
            by_cases hge : g.1 = e.2
            · rw [← hgg, if_pos hge] at hx
              rcases List.mem_append.mp hx with hx | hx
              · exact Or.inl ⟨g, hg, hx⟩
              · exact Or.inr (List.mem_singleton.mp hx)
            · rw [← hgg, if_neg hge] at hx
              exact Or.inl ⟨g, hg, hx⟩
          · rintro (⟨g, hg, hx⟩ | hx)
            · refine ⟨if g.1 = e.2 then (g.1, g.2 ++ [e.1]) else g,
                List.mem_map_of_mem _ hg, ?_⟩
              by_cases hge : g.1 = e.2
              · rw [if_pos hge]
                exact List.mem_append.mpr (Or.inl hx)
              · rw [if_neg hge]
                exact hx
            · rcases List.mem_map.mp hl with ⟨g, hg, hge⟩
              refine ⟨(g.1, g.2 ++ [e.1]),
                List.mem_map.mpr ⟨g, hg, by rw [if_pos hge]⟩, ?_⟩
              exact List.mem_append.mpr (Or.inr (List.mem_singleton.mpr hx))
        rw [hstep]
        simp only [List.map_cons, List.mem_cons]
        exact or_assoc
      · rw [if_neg hl]
        have hstep : (∃ g ∈ acc ++ [(e.2, [e.1])], x ∈ g.2)
            ↔ (∃ g ∈ acc, x ∈ g.2) ∨ x = e.1 := by
          constructor
          · rintro ⟨g, hg, hx⟩
            rcases List.mem_append.mp hg with hg | hg
            · exact Or.inl ⟨g, hg, hx⟩
            · rw [List.mem_singleton.mp hg] at hx
              exact Or.inr (List.mem_singleton.mp hx)
          · rintro (⟨g, hg, hx⟩ | hx)
            · exact ⟨g, List.mem_append.mpr (Or.inl hg), hx⟩
            · exact ⟨(e.2, [e.1]),
                List.mem_append.mpr (Or.inr (List.mem_singleton.mpr rfl)),
                List.mem_singleton.mpr hx⟩
        rw [hstep]
        simp only [List.map_cons, List.mem_cons]
        exact or_assoc
  rw [groupByLevel, main]
  simp

theorem mem_keys_hier (nodes : List NodeRef) (connections : List EdgeRef)
    (levelHeight nodeSpacing : ℚ) (x : String) :
    x ∈ (applyHierarchicalLayout nodes connections levelHeight nodeSpacing).map
          Prod.fst
      ↔ x ∈ (backfillLevels nodes (bfsLevels nodes connections)).map Prod.fst := by
  rw [applyHierarchicalLayout, hierGroups,
    mem_keys_hier_fold _ levelHeight nodeSpacing [] x, mem_groupByLevel]
  simp

/-- C1 counterexample: for nodes `[A]` and the single edge `(A, X)` with `X`
absent from the node list, the key `X` appears in the map returned by
`applyHierarchicalLayout`, so its key set is not the input node id set. -/
theorem c1_counterexample :
    ("X") ∈ (applyHierarchicalLayout [(⟨("A"), ⟨0, 0⟩⟩ : NodeRef)]
        [⟨("A"), ("X")⟩] 150 200).map Prod.fst
      ∧ ("X") ∉ [(⟨("A"), ⟨0, 0⟩⟩ : NodeRef)].map NodeRef.id := by
  constructor
  · rw [mem_keys_hier]
    decide
  · decide

/-- C1 (amended): the key set of the returned map equals the input node id
set for `applyGridLayout` and `applyForceLayout` unconditionally — for any
edge list, including edges referencing ids not in the node list — and for
`applyHierarchicalLayout` under the proviso that every edge target is an
input node id (a reachable dangling edge target otherwise shows up as an
extra key). -/
theorem c1_keys (nodes : List NodeRef) (connections : List EdgeRef)
    (columns iterations : ℕ)
    (nodeWidth nodeHeight gapX gapY levelHeight nodeSpacing : ℚ) :
    (∀ x, x ∈ (applyGridLayout nodes columns nodeWidth nodeHeight gapX gapY).map
          Prod.fst
        ↔ x ∈ nodes.map NodeRef.id)
      ∧ ((∀ c ∈ connections, c.target ∈ nodes.map NodeRef.id) →
          ∀ x, x ∈ (applyHierarchicalLayout nodes connections levelHeight
              nodeSpacing).map Prod.fst
            ↔ x ∈ nodes.map NodeRef.id)
      ∧ (∀ x, x ∈ (applyForceLayout nodes connections iterations).map Prod.fst
          ↔ x ∈ nodes.map NodeRef.id) := by
  refine ⟨?_, ?_, ?_⟩
  · intro x
    rw [applyGridLayout, mem_keys_foldl_recSet (fun ie : ℕ × NodeRef => ie.2.id)
      (fun ie => (⟨((ie.1 % columns : ℕ) : ℚ) * (nodeWidth + gapX) + 50,
        ((ie.1 / columns : ℕ) : ℚ) * (nodeHeight + gapY) + 50⟩ : Pt))
      nodes.enum [] x]
    have hkeys : nodes.enum.map (fun ie : ℕ × NodeRef => ie.2.id)
        = nodes.map NodeRef.id := by
      rw [show (fun ie : ℕ × NodeRef => ie.2.id) = NodeRef.id ∘ Prod.snd from rfl,
        ← List.map_map, List.enum_map_snd]
    rw [hkeys]
    simp
  · intro hT x
    rw [mem_keys_hier, mem_keys_backfill]
    constructor
    · rintro (hx | hx)
      · refine bfs_keys_pred connections (fun s => s ∈ nodes.map NodeRef.id) hT
          _ _ _ _ ?_ ?_ x hx
        · intro e he
          rcases List.mem_map.mp he with ⟨n, hn, hne⟩
          rw [← hne]
          exact List.mem_map_of_mem NodeRef.id (List.mem_of_mem_filter hn)
        · intro y hy
          simp at hy
      · exact hx
    · intro hx
      exact Or.inr hx
  · intro x
    rw [applyForceLayout, (keys_forceState nodes connections iterations).1,
      (mem_keys_forceInit nodes x).1]

/-- C1 witness: a dangling-source edge satisfies the target-closure proviso,
so the hierarchical key set matches the node ids; and the force-layout key
set matches them even for a dangling-target edge list. -/
theorem c1_keys_witness :
    (∀ c ∈ [(⟨("Z"), ("B")⟩ : EdgeRef)],
        c.target ∈ [(⟨("A"), ⟨0, 0⟩⟩ : NodeRef), ⟨("B"), ⟨1, 1⟩⟩].map NodeRef.id)
      ∧ (("A") ∈ (applyHierarchicalLayout
            [(⟨("A"), ⟨0, 0⟩⟩ : NodeRef), ⟨("B"), ⟨1, 1⟩⟩]
            [(⟨("Z"), ("B")⟩ : EdgeRef)] 150 200).map Prod.fst
          ↔ ("A") ∈ [(⟨("A"), ⟨0, 0⟩⟩ : NodeRef), ⟨("B"), ⟨1, 1⟩⟩].map NodeRef.id)
      ∧ (("X") ∈ (applyForceLayout
            [(⟨("A"), ⟨0, 0⟩⟩ : NodeRef), ⟨("B"), ⟨1, 1⟩⟩]
            [(⟨("A"), ("X")⟩ : EdgeRef)] 3).map Prod.fst
          ↔ ("X") ∈ [(⟨("A"), ⟨0, 0⟩⟩ : NodeRef), ⟨("B"), ⟨1, 1⟩⟩].map NodeRef.id) := by
  refine ⟨by decide, ?_, ?_⟩
  · exact (c1_keys [(⟨("A"), ⟨0, 0⟩⟩ : NodeRef), ⟨("B"), ⟨1, 1⟩⟩]
      [(⟨("Z"), ("B")⟩ : EdgeRef)] 4 100 200 100 50 50 150 200).2.1 (by decide) ("A")
  · exact (c1_keys [(⟨("A"), ⟨0, 0⟩⟩ : NodeRef), ⟨("B"), ⟨1, 1⟩⟩]
      [(⟨("A"), ("X")⟩ : EdgeRef)] 4 3 200 100 50 50 150 200).2.2 ("X")

/-! ### The repulsion distance guard (C2) -/

theorem sqrt_quarter : Real.sqrt ((3 / 10 : ℝ) * (3 / 10) + (4 / 10) * (4 / 10))
    = 1 / 2 := by
  rw [show ((3 / 10 : ℝ) * (3 / 10) + (4 / 10) * (4 / 10)) = (1 / 2) ^ 2 by
    norm_num]
  exact Real.sqrt_sq (by norm_num)

/-- C2 counterexample: for a separation of exactly `1/2` (e.g. offsets
`dx = 0.3`, `dy = 0.4`), the divisor computed by the code is `1/2`, not
`max(dist, 1) = 1`, and the repulsion force is `5000/(1/2)² = 20000 > 5000`. -/
theorem c2_counterexample :
    repulsionDist (3 / 10) (4 / 10)
        ≠ max (Real.sqrt ((3 / 10) * (3 / 10) + (4 / 10) * (4 / 10))) 1
      ∧ 5000 < 5000 / (repulsionDist (3 / 10) (4 / 10)
          * repulsionDist (3 / 10) (4 / 10)) := by
  have hd : repulsionDist (3 / 10) (4 / 10) = 1 / 2 := by
    rw [repulsionDist, sqrt_quarter]
    norm_num
  constructor
  · rw [hd, sqrt_quarter]
    norm_num
  · rw [hd]
    norm_num

/-- C2 (amended): the divisor in the repulsion computation is the euclidean
distance itself unless that distance is exactly 0 (JS `|| 1`), never
`max(dist, 1)` in general; consequently the divisor is always positive, the
force `5000/dist²` equals 5000 at coincident positions, is at most 5000 for
separations of at least 1, but exceeds 5000 for separations strictly
between 0 and 1. -/
theorem c2_repulsion_guard (dx dy : ℝ) :
    0 < repulsionDist dx dy
      ∧ (Real.sqrt (dx * dx + dy * dy) = 0 →
          5000 / (repulsionDist dx dy * repulsionDist dx dy) = 5000)
      ∧ (1 ≤ Real.sqrt (dx * dx + dy * dy) →
          5000 / (repulsionDist dx dy * repulsionDist dx dy) ≤ 5000)
      ∧ (0 < Real.sqrt (dx * dx + dy * dy) → Real.sqrt (dx * dx + dy * dy) < 1 →
          5000 < 5000 / (repulsionDist dx dy * repulsionDist dx dy)) := by
  have hnn : 0 ≤ Real.sqrt (dx * dx + dy * dy) := Real.sqrt_nonneg _
  by_cases h0 : Real.sqrt (dx * dx + dy * dy) = 0
  · rw [repulsionDist, if_pos h0]
    exact ⟨one_pos, fun _ => by norm_num, fun _ => by norm_num,
      fun hpos _ => absurd h0 (ne_of_gt hpos)⟩
  · rw [repulsionDist, if_neg h0]
    have hpos : 0 < Real.sqrt (dx * dx + dy * dy) :=
      lt_of_le_of_ne hnn (Ne.symm h0)
    refine ⟨hpos, fun hz => absurd hz h0, fun h1 => ?_, fun _ hlt => ?_⟩
    · rw [div_le_iff₀ (by positivity)]
      nlinarith
    · rw [lt_div_iff₀ (by positivity)]
      nlinarith

/-- C2 witness: at separation 5 (offsets 3 and 4) the force is at most 5000. -/
theorem c2_repulsion_guard_witness :
    1 ≤ Real.sqrt ((3 : ℝ) * 3 + 4 * 4)
      ∧ 5000 / (repulsionDist 3 4 * repulsionDist 3 4) ≤ 5000 := by
  have h5 : Real.sqrt ((3 : ℝ) * 3 + 4 * 4) = 5 := by
    rw [show ((3 : ℝ) * 3 + 4 * 4) = 5 ^ 2 by norm_num]
    exact Real.sqrt_sq (by norm_num)
  constructor
  · rw [h5]
    norm_num
  · exact (c2_repulsion_guard 3 4).2.2.1 (by rw [h5]; norm_num)

/-! ### Dangling edges are skipped by the force layout (C7) -/

theorem foldl_filter_of_id {α β : Type} (f : β → α → β) (p : α → Bool)
    (h : ∀ a, p a = false → ∀ b, f b a = b) :
    ∀ (l : List α) (b : β), l.foldl f b = (l.filter p).foldl f b := by
  intro l
  induction l with
  | nil => intro b; rfl
  | cons a l ih =>
    intro b
    rw [List.foldl_cons, List.filter_cons]
    cases hp : p a
    · rw [h a hp b]
      simpa using ih b
    · simpa using ih (f b a)

theorem attractionPhase_filter (nodes : List NodeRef) (connections : List EdgeRef)
    (s : ForceState)
    (hkeys : ∀ x, x ∈ s.positions.map Prod.fst ↔ x ∈ nodes.map NodeRef.id) :
    attractionPhase connections s
      = attractionPhase (connections.filter (fun c =>
          decide (c.source ∈ nodes.map NodeRef.id)
            && decide (c.target ∈ nodes.map NodeRef.id))) s := by
  rw [attractionPhase, attractionPhase]
  congr 1
  apply foldl_filter_of_id
  intro c hp vel
  simp only [Bool.and_eq_false_iff, decide_eq_false_iff_not] at hp
  cases hs : recGet s.positions c.source with
  | none => rfl
  | some pA =>
    cases ht : recGet s.positions c.target with
    | none => rfl
    | some pB =>
      exfalso
      have hsrc : c.source ∈ nodes.map NodeRef.id := by
        rw [← hkeys]
        by_contra hn
        rw [← recGet_eq_none_iff s.positions c.source] at hn
        rw [hn] at hs
        exact Option.noConfusion hs
      have htgt : c.target ∈ nodes.map NodeRef.id := by
        rw [← hkeys]
        by_contra hn
        rw [← recGet_eq_none_iff s.positions c.target] at hn
        rw [hn] at ht
        exact Option.noConfusion ht
      rcases hp with hp | hp
      · exact hp hsrc
      · exact hp htgt

/-- C7: `applyForceLayout` is total on edges whose endpoints are missing from
the node set; every such edge is skipped by the attraction step, so the
result coincides with the run on the edge list with those edges removed. -/
theorem c7_dangling_edges (nodes : List NodeRef) (connections : List EdgeRef)
    (iterations : ℕ) :
    applyForceLayout nodes connections iterations
      = applyForceLayout nodes
          (connections.filter (fun c =>
            decide (c.source ∈ nodes.map NodeRef.id)
              && decide (c.target ∈ nodes.map NodeRef.id)))
          iterations := by
  have hstate : ∀ k, forceState nodes connections k
      = forceState nodes (connections.filter (fun c =>
          decide (c.source ∈ nodes.map NodeRef.id)
            && decide (c.target ∈ nodes.map NodeRef.id))) k := by
    intro k
    induction k with
    | zero => rfl
    | succ k ih =>
      rw [forceState, forceState, ← ih, forceStep, forceStep]
      have hkeys : ∀ x,
          x ∈ (repulsionPhase nodes (forceState nodes connections k)).positions.map
                Prod.fst
            ↔ x ∈ nodes.map NodeRef.id := by
        intro x
        rw [(keys_repulsionPhase nodes (forceState nodes connections k)).1,
          (keys_forceState nodes connections k).1, (mem_keys_forceInit nodes x).1]
      rw [attractionPhase_filter nodes connections _ hkeys]
  rw [applyForceLayout, applyForceLayout, hstate]

/-! ### Force symmetry for a symmetric 2-node seed (C8) -/

theorem recGet_pair_left (a b : String) (p q : RPt) :
    recGet [(a, p), (b, q)] a = some p := by
  simp [recGet_cons]

theorem recGet_pair_right (a b : String) (p q : RPt) (h : a ≠ b) :
    recGet [(a, p), (b, q)] b = some q := by
  simp [recGet_cons, h]

theorem recAdjust_pair_left (a b : String) (p q : RPt) (f : RPt → RPt) (h : a ≠ b) :
    recAdjust [(a, p), (b, q)] a f = [(a, f p), (b, q)] := by
  simp [recAdjust, Ne.symm h]

theorem recAdjust_pair_right (a b : String) (p q : RPt) (f : RPt → RPt) (h : a ≠ b) :
    recAdjust [(a, p), (b, q)] b f = [(a, p), (b, f q)] := by
  simp [recAdjust, h]

theorem repulsionPhase_pair (a b : String) (pa pb : Pt) (p q v w : RPt)
    (hab : a ≠ b) :
    repulsionPhase [⟨a, pa⟩, ⟨b, pb⟩] ⟨[(a, p), (b, q)], [(a, v), (b, w)]⟩
      = ⟨[(a, p), (b, q)],
         [(a, ⟨v.x - (repKick p q).x, v.y - (repKick p q).y⟩),
          (b, ⟨w.x - (repKick q p).x, w.y - (repKick q p).y⟩)]⟩ := by
  rw [repulsionPhase]
  simp [hab, Ne.symm hab, recGet_pair_left, recGet_pair_right a b p q hab,
    recAdjust_pair_left, recAdjust_pair_right, repKick]

theorem repulsionDist_neg (dx dy : ℝ) :
    repulsionDist (-dx) (-dy) = repulsionDist dx dy := by
  rw [repulsionDist, repulsionDist, neg_mul_neg, neg_mul_neg]

theorem repKick_add (p q : RPt) :
    (repKick p q).x + (repKick q p).x = 0
      ∧ (repKick p q).y + (repKick q p).y = 0 := by
  have hd : repulsionDist (p.x - q.x) (p.y - q.y)
      = repulsionDist (q.x - p.x) (q.y - p.y) := by
    rw [show p.x - q.x = -(q.x - p.x) by ring, show p.y - q.y = -(q.y - p.y) by ring,
      repulsionDist_neg]
  constructor <;> (rw [repKick, repKick, hd]; ring)

theorem attractionPhase_pair_ab (a b : String) (p q v w : RPt) (hab : a ≠ b) :
    attractionPhase [⟨a, b⟩] ⟨[(a, p), (b, q)], [(a, v), (b, w)]⟩
      = ⟨[(a, p), (b, q)],
         [(a, ⟨v.x + (q.x - p.x) * 0.05, v.y + (q.y - p.y) * 0.05⟩),
          (b, ⟨w.x - (q.x - p.x) * 0.05, w.y - (q.y - p.y) * 0.05⟩)]⟩ := by
  rw [attractionPhase]
  simp [recGet_pair_left, recGet_pair_right a b p q hab, recAdjust_pair_left,
    recAdjust_pair_right, hab]

theorem attractionPhase_pair_ba (a b : String) (p q v w : RPt) (hab : a ≠ b) :
    attractionPhase [⟨b, a⟩] ⟨[(a, p), (b, q)], [(a, v), (b, w)]⟩
      = ⟨[(a, p), (b, q)],
         [(a, ⟨v.x - (p.x - q.x) * 0.05, v.y - (p.y - q.y) * 0.05⟩),
          (b, ⟨w.x + (p.x - q.x) * 0.05, w.y + (p.y - q.y) * 0.05⟩)]⟩ := by
  rw [attractionPhase]
  simp [recGet_pair_left, recGet_pair_right a b p q hab, recAdjust_pair_left,
    recAdjust_pair_right, hab]

theorem gravityPhase_pair (a b : String) (pa pb : Pt) (p q v w : RPt)
    (hab : a ≠ b) :
    gravityPhase [⟨a, pa⟩, ⟨b, pb⟩] ⟨[(a, p), (b, q)], [(a, v), (b, w)]⟩
      = ⟨[(a, p), (b, q)],
         [(a, ⟨v.x + (400 - p.x) * 0.01, v.y + (300 - p.y) * 0.01⟩),
          (b, ⟨w.x + (400 - q.x) * 0.01, w.y + (300 - q.y) * 0.01⟩)]⟩ := by
  rw [gravityPhase]
  simp [recGet_pair_left, recGet_pair_right a b p q hab, recAdjust_pair_left,
    recAdjust_pair_right, hab]

theorem integratePhase_pair (a b : String) (pa pb : Pt) (p q v w : RPt)
    (hab : a ≠ b) :
    integratePhase [⟨a, pa⟩, ⟨b, pb⟩] ⟨[(a, p), (b, q)], [(a, v), (b, w)]⟩
      = ⟨[(a, ⟨p.x + v.x, p.y + v.y⟩), (b, ⟨q.x + w.x, q.y + w.y⟩)],
         [(a, ⟨v.x * 0.9, v.y * 0.9⟩), (b, ⟨w.x * 0.9, w.y * 0.9⟩)]⟩ := by
  rw [integratePhase]
  simp [recGet_pair_left, recGet_pair_right, recAdjust_pair_left,
    recAdjust_pair_right, hab]

theorem forceStep_pair_symm (a b : String) (hab : a ≠ b) (pa pb : Pt)
    (e : EdgeRef) (he : e = ⟨a, b⟩ ∨ e = ⟨b, a⟩) (p q v w : RPt)
    (hpx : p.x + q.x = 800) (hpy : p.y + q.y = 600)
    (hvx : v.x + w.x = 0) (hvy : v.y + w.y = 0) :
    ∃ P Q V W : RPt,
      forceStep [⟨a, pa⟩, ⟨b, pb⟩] [e] ⟨[(a, p), (b, q)], [(a, v), (b, w)]⟩
          = ⟨[(a, P), (b, Q)], [(a, V), (b, W)]⟩
        ∧ P.x + Q.x = 800 ∧ P.y + Q.y = 600 ∧ V.x + W.x = 0 ∧ V.y + W.y = 0 := by
  have hk := repKick_add p q
  rcases he with rfl | rfl
  · rw [forceStep, repulsionPhase_pair a b pa pb p q v w hab,
      attractionPhase_pair_ab a b p q _ _ hab,
      gravityPhase_pair a b pa pb p q _ _ hab,
      integratePhase_pair a b pa pb p q _ _ hab]
    refine ⟨_, _, _, _, rfl, ?_, ?_, ?_, ?_⟩ <;> (dsimp only; linarith [hk.1, hk.2])
  · rw [forceStep, repulsionPhase_pair a b pa pb p q v w hab,
      attractionPhase_pair_ba a b p q _ _ hab,
      gravityPhase_pair a b pa pb p q _ _ hab,
      integratePhase_pair a b pa pb p q _ _ hab]
    refine ⟨_, _, _, _, rfl, ?_, ?_, ?_, ?_⟩ <;> (dsimp only; linarith [hk.1, hk.2])

/-- C8: for a 2-node graph with a single edge between the two nodes and seed
positions symmetric about the center `(400, 300)`, after every iteration the
positions stay symmetric about the center (componentwise sums 800 and 600)
and the velocities stay exact negations of each other. -/
theorem c8_force_symmetry (a b : String) (pa pb : Pt) (e : EdgeRef)
    (hab : a ≠ b) (he : e = ⟨a, b⟩ ∨ e = ⟨b, a⟩)
    (hx : (pa.x : ℝ) + (pb.x : ℝ) = 800) (hy : (pa.y : ℝ) + (pb.y : ℝ) = 600)
    (k : ℕ) :
    ∃ P Q V W : RPt,
      forceState [⟨a, pa⟩, ⟨b, pb⟩] [e] k = ⟨[(a, P), (b, Q)], [(a, V), (b, W)]⟩
        ∧ P.x + Q.x = 800 ∧ P.y + Q.y = 600 ∧ V.x + W.x = 0 ∧ V.y + W.y = 0 := by
  induction k with
  | zero =>
    refine ⟨⟨(pa.x : ℝ), (pa.y : ℝ)⟩, ⟨(pb.x : ℝ), (pb.y : ℝ)⟩, ⟨0, 0⟩, ⟨0, 0⟩,
      ?_, ?_, ?_, ?_, ?_⟩
    · rw [show forceState [⟨a, pa⟩, ⟨b, pb⟩] [e] 0 = forceInit [⟨a, pa⟩, ⟨b, pb⟩]
        from rfl]
      simp [forceInit, recSet, hab]
    · exact hx
    · exact hy
    · norm_num
    · norm_num
  | succ k ih =>
    rcases ih with ⟨P, Q, V, W, hs, h1, h2, h3, h4⟩
    rw [forceState, hs]
    exact forceStep_pair_symm a b hab pa pb e he P Q V W h1 h2 h3 h4

/-- C8 witness: symmetric seeds (100,100) and (700,500) around (400,300),
one edge, two iterations. -/
theorem c8_force_symmetry_witness :
    (("L") : String) ≠ ("R")
      ∧ ((⟨("L"), ("R")⟩ : EdgeRef) = ⟨("L"), ("R")⟩
          ∨ (⟨("L"), ("R")⟩ : EdgeRef) = ⟨("R"), ("L")⟩)
      ∧ ((100 : ℚ) : ℝ) + ((700 : ℚ) : ℝ) = 800
      ∧ ((100 : ℚ) : ℝ) + ((500 : ℚ) : ℝ) = 600
      ∧ ∃ P Q V W : RPt,
          forceState [⟨("L"), ⟨100, 100⟩⟩, ⟨("R"), ⟨700, 500⟩⟩]
              [⟨("L"), ("R")⟩] 2
              = ⟨[(("L"), P), (("R"), Q)], [(("L"), V), (("R"), W)]⟩
            ∧ P.x + Q.x = 800 ∧ P.y + Q.y = 600 ∧ V.x + W.x = 0 ∧ V.y + W.y = 0 := by
  refine ⟨by decide, Or.inl rfl, by norm_num, by norm_num, ?_⟩
  exact c8_force_symmetry ("L") ("R") ⟨100, 100⟩ ⟨700, 500⟩ ⟨("L"), ("R")⟩
    (by decide) (Or.inl rfl) (by norm_num) (by norm_num) 2

/-- C9: for an empty node list, each of the three layout functions returns the
empty map and raises no error, for any (possibly nonempty) edge list and any
parameters. -/
theorem c9_empty_nodes (connections : List EdgeRef) (columns iterations : ℕ)
    (nodeWidth nodeHeight gapX gapY levelHeight nodeSpacing : ℚ) :
    applyGridLayout [] columns nodeWidth nodeHeight gapX gapY = []
      ∧ applyHierarchicalLayout [] connections levelHeight nodeSpacing = []
      ∧ applyForceLayout [] connections iterations = [] := by
  refine ⟨rfl, ?_, ?_⟩
  · simp [applyHierarchicalLayout, hierGroups, bfsLevels, rootNodes,
      bfsAux_nil_queue, backfillLevels, groupByLevel]
  · simp [applyForceLayout, forceState_nil]

/-! ### BFS level correctness (C3) -/

theorem sorted_of_const (L : List ℕ) (c : ℕ) (h : ∀ a ∈ L, a = c) :
    List.Sorted (· ≤ ·) L := by
  induction L with
  | nil => simp
  | cons a L ih =>
    rw [List.sorted_cons]
    refine ⟨fun b hb => ?_, ih (fun b hb => h b (List.mem_cons_of_mem a hb))⟩
    rw [h a (List.mem_cons_self a L), h b (List.mem_cons_of_mem a hb)]

theorem mem_keys_exists {V : Type} (m : List (String × V)) (x : String)
    (h : x ∈ m.map Prod.fst) : ∃ v, (x, v) ∈ m := by
  rcases List.mem_map.mp h with ⟨e, he, hex⟩
  exact ⟨e.2, by rw [← hex]; exact he⟩

theorem bfs_filter_count (connections : List EdgeRef) (z : String)
    (vis : List String) (hz : z ∉ vis) :
    (connections.filter (fun c => decide (c.source ∉ z :: vis))).length
        + (connections.filter (fun c => decide (c.source = z))).length
      = (connections.filter (fun c => decide (c.source ∉ vis))).length := by
  induction connections with
  | nil => rfl
  | cons c cs ih =>
    rw [List.filter_cons, List.filter_cons, List.filter_cons]
    by_cases h1 : c.source = z
    · have b1 : decide (c.source ∉ z :: vis) = false := by simp [h1]
      have b2 : decide (c.source = z) = true := by simp [h1]
      have b3 : decide (c.source ∉ vis) = true := by simp [h1, hz]
      rw [b1, b2, b3]
      simp only [if_true, if_false, Bool.false_eq_true, List.length_cons]
      omega
    · by_cases h2 : c.source ∈ vis
      · have b1 : decide (c.source ∉ z :: vis) = false := by simp [h2]
        have b2 : decide (c.source = z) = false := by simp [h1]
        have b3 : decide (c.source ∉ vis) = false := by simp [h2]
        rw [b1, b2, b3]
        simp only [if_true, if_false, Bool.false_eq_true]
        omega
      · have b1 : decide (c.source ∉ z :: vis) = true := by simp [h1, h2]
        have b2 : decide (c.source = z) = false := by simp [h1]
        have b3 : decide (c.source ∉ vis) = true := by simp [h2]
        rw [b1, b2, b3]
        simp only [if_true, if_false, Bool.false_eq_true, List.length_cons]
        omega

theorem bfs_front_le (connections : List EdgeRef) (R : List String)
    (z : String) (l : ℕ) (rest : List (String × ℕ)) (visited : List String)
    (levels : List (String × ℕ))
    (inv : BfsInv connections R ((z, l) :: rest) visited levels)
    (p : String × ℕ) (hp : p ∈ (z, l) :: rest) : l ≤ p.2 := by
  rcases List.mem_cons.mp hp with h | h
  · rw [h]
  · exact (List.sorted_cons.mp (by simpa using inv.sorted)).1 p.2
      (List.mem_map_of_mem Prod.snd h)

theorem bfs_front_min (connections : List EdgeRef) (R : List String)
    (z : String) (l : ℕ) (rest : List (String × ℕ)) (visited : List String)
    (levels : List (String × ℕ))
    (inv : BfsInv connections R ((z, l) :: rest) visited levels) :
    ∀ (k : ℕ) (x : String), x ∉ visited →
      (∃ r ∈ R, Reaches connections r x k) → l ≤ k := by
  intro k
  induction k with
  | zero =>
    rintro x hxv ⟨r, hr, hre⟩
    cases hre with
    | refl =>
      exact bfs_front_le connections R z l rest visited levels inv (x, 0)
        (inv.rootsQueued x hr hxv)
  | succ k ih =>
    rintro x hxv ⟨r, hr, hre⟩
    cases hre with
    | @step y _ h c hc hy =>
      by_cases hyv : y ∈ visited
      · rcases mem_keys_exists levels y ((inv.visIff y).mp hyv) with ⟨ly, hly⟩
        have hmin : ly ≤ k := (inv.exactLvl (y, ly) hly).2 k ⟨r, hr, h⟩
        have hfr : (c.target, ly + 1) ∈ (z, l) :: rest :=
          inv.frontier (y, ly) hly c hc hy hxv
        have hle := bfs_front_le connections R z l rest visited levels inv
          (c.target, ly + 1) hfr
        simp only at hle
        omega
      · have := ih y hyv ⟨r, hr, h⟩
        omega

theorem bfs_post_of_empty (connections : List EdgeRef) (R : List String)
    (visited : List String) (levels : List (String × ℕ))
    (inv : BfsInv connections R [] visited levels) :
    (∀ r ∈ R, (r, 0) ∈ levels)
      ∧ (∀ e ∈ levels,
          (∃ r ∈ R, Reaches connections r e.1 e.2)
            ∧ ∀ k, (∃ r ∈ R, Reaches connections r e.1 k) → e.2 ≤ k)
      ∧ (levels.map Prod.fst).Nodup := by
  refine ⟨?_, inv.exactLvl, inv.nodupKeys⟩
  intro r hr
  by_cases hv : r ∈ visited
  · rcases mem_keys_exists levels r ((inv.visIff r).mp hv) with ⟨lr, hlr⟩
    have h0 : lr ≤ 0 := (inv.exactLvl (r, lr) hlr).2 0 ⟨r, hr, Reaches.refl r⟩
    have hlr0 : lr = 0 := Nat.le_zero.mp h0
    rw [← hlr0]
    exact hlr
  · exact absurd (inv.rootsQueued r hr hv) (List.not_mem_nil (r, 0))

theorem sorted_append_le (L1 L2 : List ℕ) (h1 : List.Sorted (· ≤ ·) L1)
    (h2 : List.Sorted (· ≤ ·) L2) (h12 : ∀ a ∈ L1, ∀ b ∈ L2, a ≤ b) :
    List.Sorted (· ≤ ·) (L1 ++ L2) :=
  List.pairwise_append.mpr ⟨h1, h2, h12⟩

theorem bfs_main (connections : List EdgeRef) (R : List String) :
    ∀ (fuel : ℕ) (queue : List (String × ℕ)) (visited : List String)
      (levels : List (String × ℕ)),
      BfsInv connections R queue visited levels →
      bfsPot connections queue visited ≤ fuel →
      (∀ r ∈ R, (r, 0) ∈ bfsAux connections fuel queue visited levels)
        ∧ (∀ e ∈ bfsAux connections fuel queue visited levels,
            (∃ r ∈ R, Reaches connections r e.1 e.2)
              ∧ ∀ k, (∃ r ∈ R, Reaches connections r e.1 k) → e.2 ≤ k)
        ∧ ((bfsAux connections fuel queue visited levels).map Prod.fst).Nodup := by
  intro fuel
  induction fuel with
  | zero =>
    intro queue visited levels inv hpot
    have hq : queue = [] := by
      rw [bfsPot] at hpot
      exact List.length_eq_zero.mp (by omega)
    subst hq
    rw [show bfsAux connections 0 [] visited levels = levels from rfl]
    exact bfs_post_of_empty connections R visited levels inv
  | succ fuel ih =>
    intro queue visited levels inv hpot
    obtain _ | ⟨⟨z, l⟩, rest⟩ := queue
    · rw [show bfsAux connections (fuel + 1) [] visited levels = levels from rfl]
      exact bfs_post_of_empty connections R visited levels inv
    by_cases hv : z ∈ visited
    · rw [show bfsAux connections (fuel + 1) ((z, l) :: rest) visited levels
          = bfsAux connections fuel rest visited levels from by
        rw [bfsAux, if_pos hv]]
      apply ih rest visited levels
      · exact
          { sorted := (List.sorted_cons.mp (by simpa using inv.sorted)).2
            gap := fun a ha b hb => inv.gap a
              (by rw [List.map_cons]; exact List.mem_cons_of_mem _ ha) b
              (by rw [List.map_cons]; exact List.mem_cons_of_mem _ hb)
            sound := fun e he => inv.sound e (List.mem_cons_of_mem _ he)
            visIff := inv.visIff
            nodupKeys := inv.nodupKeys
            exactLvl := inv.exactLvl
            rootsQueued := fun r hr hrv => by
              rcases List.mem_cons.mp (inv.rootsQueued r hr hrv) with h | h
              · have hrz : r = z := (Prod.ext_iff.mp h).1
                exact absurd (by rw [hrz]; exact hv) hrv
              · exact h
            frontier := fun e he c hc hcs hct => by
              rcases List.mem_cons.mp (inv.frontier e he c hc hcs hct) with h | h
              · have htz : c.target = z := (Prod.ext_iff.mp h).1
                exact absurd (by rw [htz]; exact hv) hct
              · exact h }
      · rw [bfsPot] at hpot ⊢
        simp only [List.length_cons] at hpot
        omega
    · have hzex : ∃ r ∈ R, Reaches connections r z l :=
        inv.sound (z, l) (List.mem_cons_self _ _)
      have hzmin : ∀ k, (∃ r ∈ R, Reaches connections r z k) → l ≤ k :=
        fun k hk => bfs_front_min connections R z l rest visited levels inv k z hv hk
      have hall_ge : ∀ m ∈ rest.map Prod.snd, l ≤ m :=
        (List.sorted_cons.mp (by simpa using inv.sorted)).1
      have hall_le : ∀ m ∈ rest.map Prod.snd, m ≤ l + 1 := fun m hm =>
        inv.gap m (by rw [List.map_cons]; exact List.mem_cons_of_mem _ hm) l
          (by rw [List.map_cons]; exact List.mem_cons_self _ _)
      have hpush_mem : ∀ p ∈ ((childrenOf connections z).filter
            (fun c => decide (c ∉ z :: visited))).map (fun c => (c, l + 1)),
          (∃ cn ∈ connections, cn.source = z ∧ cn.target = p.1)
            ∧ p.2 = l + 1 ∧ p.1 ∉ z :: visited := by
        intro p hp
        rcases List.mem_map.mp hp with ⟨c, hc, hcp⟩
        have hcv : c ∉ z :: visited := by
          have := List.of_mem_filter hc
          simpa using this
        rcases List.mem_map.mp (List.mem_of_mem_filter hc) with ⟨cn, hcn, hcnt⟩
        have hcns : cn.source = z := by
          have := List.of_mem_filter hcn
          simpa using this
        refine ⟨⟨cn, List.mem_of_mem_filter hcn, hcns, ?_⟩, ?_, ?_⟩
        · rw [hcnt, ← hcp]
        · rw [← hcp]
        · rw [← hcp]
          exact hcv
      have hpush_snd : ∀ m ∈ (((childrenOf connections z).filter
            (fun c => decide (c ∉ z :: visited))).map (fun c => (c, l + 1))).map
            Prod.snd, m = l + 1 := by
        intro m hm
        rw [List.map_map] at hm
        rcases List.mem_map.mp hm with ⟨c, _, hcm⟩
        rw [← hcm]
        rfl
      rw [show bfsAux connections (fuel + 1) ((z, l) :: rest) visited levels
          = bfsAux connections fuel
              (rest ++ ((childrenOf connections z).filter
                (fun c => decide (c ∉ z :: visited))).map (fun c => (c, l + 1)))
              (z :: visited) (levels ++ [(z, l)]) from by
        rw [bfsAux, if_neg hv]]
      apply ih
      · refine
          { sorted := ?_
            gap := ?_
            sound := ?_
            visIff := ?_
            nodupKeys := ?_
            exactLvl := ?_
            rootsQueued := ?_
            frontier := ?_ }
        · rw [List.map_append]
          apply sorted_append_le
          · exact (List.sorted_cons.mp (by simpa using inv.sorted)).2
          · exact sorted_of_const _ (l + 1) hpush_snd
          · intro a ha b hb
            rw [hpush_snd b hb]
            exact le_trans (hall_le a ha) (le_refl _)
        · intro a ha b hb
          rw [List.map_append] at ha hb
          rcases List.mem_append.mp ha with ha | ha <;>
            rcases List.mem_append.mp hb with hb | hb
          · exact inv.gap a (by rw [List.map_cons]; exact List.mem_cons_of_mem _ ha)
              b (by rw [List.map_cons]; exact List.mem_cons_of_mem _ hb)
          · rw [hpush_snd b hb]
            have := hall_le a ha
            omega
          · rw [hpush_snd a ha]
            have := hall_ge b hb
            omega
          · rw [hpush_snd a ha, hpush_snd b hb]
            omega
        · intro e he
          rcases List.mem_append.mp he with he | he
          · exact inv.sound e (List.mem_cons_of_mem _ he)
          · rcases hpush_mem e he with ⟨⟨cn, hcn, hcns, hcnt⟩, he2, _⟩
            rcases hzex with ⟨r, hr, hrz⟩
            refine ⟨r, hr, ?_⟩
            have := Reaches.step hrz hcn hcns
            rw [hcnt] at this
            rw [he2]
            exact this
        · intro x
          rw [List.map_append]
          simp only [List.mem_cons, List.mem_append, List.map_cons, List.map_nil,
            List.mem_singleton, List.not_mem_nil, or_false]
          rw [← inv.visIff x]
          tauto
        · rw [List.map_append]
          apply List.Nodup.append inv.nodupKeys
          · simp
          · intro x hx hxz
            simp only [List.map_cons, List.map_nil, List.mem_singleton,
              List.mem_cons, List.not_mem_nil, or_false] at hxz
            rw [hxz] at hx
            exact hv ((inv.visIff z).mpr hx)
        · intro e he
          rcases List.mem_append.mp he with he | he
          · exact inv.exactLvl e he
          · have he' : e = (z, l) := List.mem_singleton.mp he
            rw [he']
            exact ⟨hzex, hzmin⟩
        · intro r hr hrv
          simp only [List.mem_cons, not_or] at hrv
          rcases List.mem_cons.mp (inv.rootsQueued r hr hrv.2) with h | h
          · have hrz : r = z := (Prod.ext_iff.mp h).1
            exact absurd hrz hrv.1
          · exact List.mem_append.mpr (Or.inl h)
        · intro e he c hc hcs hct
          simp only [List.mem_cons, not_or] at hct
          rcases List.mem_append.mp he with he | he
          · rcases List.mem_cons.mp (inv.frontier e he c hc hcs hct.2) with h | h
            · exact absurd (Prod.ext_iff.mp h).1 hct.1
            · exact List.mem_append.mpr (Or.inl h)
          · have he' : e = (z, l) := List.mem_singleton.mp he
            apply List.mem_append.mpr
            right
            apply List.mem_map.mpr
            refine ⟨c.target, ?_, by rw [he']⟩
            apply List.mem_filter.mpr
            constructor
            · apply List.mem_map.mpr
              refine ⟨c, ?_, rfl⟩
              apply List.mem_filter.mpr
              refine ⟨hc, ?_⟩
              rw [he'] at hcs
              simp [hcs]
            · simp only [decide_eq_true_eq]
              intro hmem
              rcases List.mem_cons.mp hmem with h | h
              · exact hct.1 h
              · exact hct.2 h
      · have hlen1 : (((childrenOf connections z).filter
              (fun c => decide (c ∉ z :: visited))).map (fun c => (c, l + 1))).length
            ≤ (connections.filter (fun c => decide (c.source = z))).length := by
          rw [List.length_map]
          calc ((childrenOf connections z).filter
                (fun c => decide (c ∉ z :: visited))).length
              ≤ (childrenOf connections z).length := List.length_filter_le _ _
            _ = (connections.filter (fun c => decide (c.source = z))).length := by
                rw [childrenOf, List.length_map]
        have hcount := bfs_filter_count connections z visited hv
        rw [bfsPot] at hpot ⊢
        rw [List.length_append]
        simp only [List.length_cons] at hpot
        omega

/-- Specification of `bfsLevels`: roots at level 0, every assigned level a
shortest root-walk distance, and assigned ids pairwise distinct. -/
theorem bfsLevels_spec (nodes : List NodeRef) (connections : List EdgeRef) :
    (∀ r ∈ rootIds nodes connections, (r, 0) ∈ bfsLevels nodes connections)
      ∧ (∀ e ∈ bfsLevels nodes connections,
          (∃ r ∈ rootIds nodes connections, Reaches connections r e.1 e.2)
            ∧ ∀ k, (∃ r ∈ rootIds nodes connections, Reaches connections r e.1 k)
                → e.2 ≤ k)
      ∧ ((bfsLevels nodes connections).map Prod.fst).Nodup := by
  have hzero : ∀ a ∈ ((rootNodes nodes connections).map
      (fun n => (n.id, 0))).map Prod.snd, a = 0 := by
    intro a ha
    rw [List.map_map] at ha
    rcases List.mem_map.mp ha with ⟨n, _, hna⟩
    rw [← hna]
    rfl
  have init_inv : BfsInv connections (rootIds nodes connections)
      ((rootNodes nodes connections).map (fun n => (n.id, 0))) [] [] := by
    refine
      { sorted := sorted_of_const _ 0 hzero
        gap := ?_
        sound := ?_
        visIff := by intro x; simp
        nodupKeys := by simp
        exactLvl := by intro e he; simp at he
        rootsQueued := ?_
        frontier := by intro e he; simp at he }
    · intro a ha b hb
      rw [hzero a ha, hzero b hb]
      omega
    · intro e he
      rcases List.mem_map.mp he with ⟨n, hn, hne⟩
      refine ⟨n.id, List.mem_map_of_mem NodeRef.id hn, ?_⟩
      rw [← hne]
      exact Reaches.refl n.id
    · intro r hr _
      rcases List.mem_map.mp hr with ⟨n, hn, hnr⟩
      exact List.mem_map.mpr ⟨n, hn, by rw [hnr]⟩
  have hpot : bfsPot connections
      ((rootNodes nodes connections).map (fun n => (n.id, 0))) []
      ≤ nodes.length + connections.length := by
    rw [bfsPot, List.length_map]
    have h1 : (rootNodes nodes connections).length ≤ nodes.length := by
      rw [rootNodes]
      exact List.length_filter_le _ _
    have h2 : (connections.filter
        (fun c => decide (c.source ∉ ([] : List String)))).length
        ≤ connections.length := List.length_filter_le _ _
    omega
  have h := bfs_main connections (rootIds nodes connections)
    (nodes.length + connections.length) _ [] [] init_inv hpot
  rw [bfsLevels]
  exact h

/-- C3: in `applyHierarchicalLayout`, every node with no incoming edge (a
root) is assigned level 0 by the BFS, and every id the BFS reaches is
assigned the length of a shortest directed walk to it from some root (an
assigned level is both realized by a walk from a root and minimal among all
such walks). -/
theorem c3_bfs_levels (nodes : List NodeRef) (connections : List EdgeRef) :
    (∀ r ∈ rootIds nodes connections, (r, 0) ∈ bfsLevels nodes connections)
      ∧ ∀ e ∈ bfsLevels nodes connections,
          (∃ r ∈ rootIds nodes connections, Reaches connections r e.1 e.2)
            ∧ ∀ k, (∃ r ∈ rootIds nodes connections, Reaches connections r e.1 k)
                → e.2 ≤ k :=
  ⟨(bfsLevels_spec nodes connections).1, (bfsLevels_spec nodes connections).2.1⟩

theorem c3_bfs_levels_witness :
    ("A") ∈ rootIds [(⟨("A"), ⟨0, 0⟩⟩ : NodeRef), ⟨("B"), ⟨0, 0⟩⟩, ⟨("C"), ⟨0, 0⟩⟩]
        [⟨("A"), ("B")⟩, ⟨("B"), ("C")⟩]
      ∧ (("A"), 0) ∈ bfsLevels
          [(⟨("A"), ⟨0, 0⟩⟩ : NodeRef), ⟨("B"), ⟨0, 0⟩⟩, ⟨("C"), ⟨0, 0⟩⟩]
          [⟨("A"), ("B")⟩, ⟨("B"), ("C")⟩] := by
  refine ⟨by decide, ?_⟩
  exact (c3_bfs_levels
    [(⟨("A"), ⟨0, 0⟩⟩ : NodeRef), ⟨("B"), ⟨0, 0⟩⟩, ⟨("C"), ⟨0, 0⟩⟩]
    [⟨("A"), ("B")⟩, ⟨("B"), ("C")⟩]).1 ("A") (by decide)

theorem backfill_mono (nodes : List NodeRef) :
    ∀ (levels : List (String × ℕ)) (e : String × ℕ), e ∈ levels →
      e ∈ backfillLevels nodes levels := by
  induction nodes with
  | nil => intro levels e he; exact he
  | cons n nodes ih =>
    intro levels e he
    rw [backfillLevels, List.foldl_cons, ← backfillLevels]
    by_cases h : n.id ∈ levels.map Prod.fst
    · rw [if_pos h]
      exact ih levels e he
    · rw [if_neg h]
      exact ih (levels ++ [(n.id, 0)]) e (List.mem_append.mpr (Or.inl he))

theorem backfill_of_not_mem (nodes : List NodeRef) :
    ∀ (levels : List (String × ℕ)) (x : String), x ∈ nodes.map NodeRef.id →
      x ∉ levels.map Prod.fst → (x, 0) ∈ backfillLevels nodes levels := by
  induction nodes with
  | nil => intro levels x hx _; simp at hx
  | cons n nodes ih =>
    intro levels x hx hnx
    rw [backfillLevels, List.foldl_cons, ← backfillLevels]
    rw [List.map_cons] at hx
    by_cases hxn : x = n.id
    · rw [if_neg (by rw [← hxn]; exact hnx)]
      exact backfill_mono nodes (levels ++ [(n.id, 0)]) (x, 0)
        (List.mem_append.mpr (Or.inr (by rw [hxn]; exact List.mem_singleton.mpr rfl)))
    · have hxtail : x ∈ nodes.map NodeRef.id := by
        rcases List.mem_cons.mp hx with h1 | h1
        · exact absurd h1 hxn
        · exact h1
      by_cases h : n.id ∈ levels.map Prod.fst
      · rw [if_pos h]
        exact ih levels x hxtail hnx
      · rw [if_neg h]
        apply ih (levels ++ [(n.id, 0)]) x hxtail
        rw [List.map_append]
        simp only [List.mem_append, List.map_cons, List.map_nil,
          List.mem_singleton, not_or]
        exact ⟨hnx, hxn⟩

/-- C4: every input node never reached by the BFS is forced to level 0 by
the backfill step; in particular for nodes `[A, B]` with edges
`[(A,B), (B,A)]` (a pure cycle: no roots, BFS visits nothing) both nodes
appear in the returned map at `y = 0*levelHeight + 50 = 50`. -/
theorem c4_cycle_fallback (nodes : List NodeRef) (connections : List EdgeRef) :
    (∀ n ∈ nodes, n.id ∉ (bfsLevels nodes connections).map Prod.fst →
        (n.id, 0) ∈ backfillLevels nodes (bfsLevels nodes connections))
      ∧ applyHierarchicalLayout
          [(⟨("A"), ⟨0, 0⟩⟩ : NodeRef), ⟨("B"), ⟨0, 0⟩⟩]
          [⟨("A"), ("B")⟩, ⟨("B"), ("A")⟩] 150 200
        = [(("A"), ⟨300, 50⟩), (("B"), ⟨500, 50⟩)] := by
  constructor
  · intro n hn hnx
    exact backfill_of_not_mem nodes (bfsLevels nodes connections) n.id
      (List.mem_map_of_mem NodeRef.id hn) hnx
  · norm_num +decide [applyHierarchicalLayout, hierGroups, groupByLevel,
      backfillLevels, bfsLevels, bfsAux, rootNodes, childrenOf, placeLevel,
      recSet, recGet, List.enum, List.enumFrom]

theorem c4_cycle_fallback_witness :
    (⟨("A"), ⟨0, 0⟩⟩ : NodeRef) ∈ [(⟨("A"), ⟨0, 0⟩⟩ : NodeRef), ⟨("B"), ⟨0, 0⟩⟩]
      ∧ ("A") ∉ (bfsLevels [(⟨("A"), ⟨0, 0⟩⟩ : NodeRef), ⟨("B"), ⟨0, 0⟩⟩]
          [⟨("A"), ("B")⟩, ⟨("B"), ("A")⟩]).map Prod.fst
      ∧ (("A"), 0) ∈ backfillLevels [(⟨("A"), ⟨0, 0⟩⟩ : NodeRef), ⟨("B"), ⟨0, 0⟩⟩]
          (bfsLevels [(⟨("A"), ⟨0, 0⟩⟩ : NodeRef), ⟨("B"), ⟨0, 0⟩⟩]
            [⟨("A"), ("B")⟩, ⟨("B"), ("A")⟩]) := by
  refine ⟨by decide, by decide, ?_⟩
  exact (c4_cycle_fallback [(⟨("A"), ⟨0, 0⟩⟩ : NodeRef), ⟨("B"), ⟨0, 0⟩⟩]
    [⟨("A"), ("B")⟩, ⟨("B"), ("A")⟩]).1 ⟨("A"), ⟨0, 0⟩⟩ (by decide) (by decide)

/-! ### Hierarchical positioning formula (C6) -/

theorem backfill_nodup (nodes : List NodeRef) :
    ∀ levels : List (String × ℕ), (levels.map Prod.fst).Nodup →
      ((backfillLevels nodes levels).map Prod.fst).Nodup := by
  induction nodes with
  | nil => intro levels h; exact h
  | cons n nodes ih =>
    intro levels h
    rw [backfillLevels, List.foldl_cons, ← backfillLevels]
    by_cases hn : n.id ∈ levels.map Prod.fst
    · rw [if_pos hn]
      exact ih levels h
    · rw [if_neg hn]
      apply ih
      rw [List.map_append]
      apply List.Nodup.append h (by simp)
      intro x hx hxn
      simp only [List.map_cons, List.map_nil, List.mem_singleton,
        List.mem_cons, List.not_mem_nil, or_false] at hxn
      rw [hxn] at hx
      exact hn hx

theorem nodup_keys_functional {V : Type} (m : List (String × V))
    (hnd : (m.map Prod.fst).Nodup) (x : String) (a b : V)
    (ha : (x, a) ∈ m) (hb : (x, b) ∈ m) : a = b := by
  have h1 := recGet_of_mem_nodup m x a hnd ha
  have h2 := recGet_of_mem_nodup m x b hnd hb
  rw [h1] at h2
  exact Option.some.inj h2

theorem gbl_aux (full : List (String × ℕ)) :
    ∀ (todo done : List (String × ℕ)) (acc : List (ℕ × List String)),
      done ++ todo = full →
      (full.map Prod.fst).Nodup →
      (acc.map Prod.fst).Nodup →
      (∀ g ∈ acc, (∀ x ∈ g.2, (x, g.1) ∈ done) ∧ g.2.Nodup) →
      ((todo.foldl
          (fun groups e =>
            if e.2 ∈ groups.map Prod.fst then
              groups.map (fun g => if g.1 = e.2 then (g.1, g.2 ++ [e.1]) else g)
            else groups ++ [(e.2, [e.1])])
          acc).map Prod.fst).Nodup
        ∧ ∀ g ∈ todo.foldl
            (fun groups e =>
              if e.2 ∈ groups.map Prod.fst then
                groups.map (fun g => if g.1 = e.2 then (g.1, g.2 ++ [e.1]) else g)
              else groups ++ [(e.2, [e.1])])
            acc, (∀ x ∈ g.2, (x, g.1) ∈ full) ∧ g.2.Nodup := by
  intro todo
  induction todo with
  | nil =>
    intro done acc hfull hnd hk hg
    rw [List.foldl_nil]
    refine ⟨hk, fun g hgm => ⟨fun x hx => ?_, (hg g hgm).2⟩⟩
    rw [← hfull]
    exact List.mem_append.mpr (Or.inl ((hg g hgm).1 x hx))
  | cons e todo ih =>
    intro done acc hfull hnd hk hg
    rw [List.foldl_cons]
    have hfull2 : (done ++ [e]) ++ todo = full := by
      rw [List.append_assoc]
      exact hfull
    have hefresh : e.1 ∉ done.map Prod.fst := by
      intro hmem
      rw [← hfull] at hnd
      rw [List.map_append] at hnd
      rcases List.nodup_append.mp hnd with ⟨_, _, hdisj⟩
      exact hdisj hmem (by simp)
    by_cases hp : e.2 ∈ acc.map Prod.fst
    · rw [if_pos hp]
      apply ih (done ++ [e]) _ hfull2 hnd
      · rw [show (acc.map (fun g => if g.1 = e.2 then (g.1, g.2 ++ [e.1]) else g)).map
            Prod.fst = acc.map Prod.fst from ?_]
        · exact hk
        · rw [List.map_map]
          apply List.map_congr_left
          intro g _
          by_cases hge : g.1 = e.2
          · rw [Function.comp_apply, if_pos hge]
          · rw [Function.comp_apply, if_neg hge]
      · intro g2 hg2
        rcases List.mem_map.mp hg2 with ⟨g, hgm, hgg⟩
        by_cases hge : g.1 = e.2
        · rw [if_pos hge] at hgg
          rw [← hgg]
          constructor
          · intro x hx
            rcases List.mem_append.mp hx with hx | hx
            · exact List.mem_append.mpr (Or.inl ((hg g hgm).1 x hx))
            · rw [List.mem_singleton.mp hx]
              apply List.mem_append.mpr
              right
              rw [hge]
              simp
          · apply List.Nodup.append (hg g hgm).2 (by simp)
            intro x hx hxe
            rw [List.mem_singleton.mp hxe] at hx
            have hmem : (e.1, g.1) ∈ done := (hg g hgm).1 e.1 hx
            exact hefresh (List.mem_map.mpr ⟨(e.1, g.1), hmem, rfl⟩)
        · rw [if_neg hge] at hgg
          rw [← hgg]
          exact ⟨fun x hx => List.mem_append.mpr (Or.inl ((hg g hgm).1 x hx)),
            (hg g hgm).2⟩
    · rw [if_neg hp]
      apply ih (done ++ [e]) _ hfull2 hnd
      · rw [List.map_append]
        apply List.Nodup.append hk (by simp)
        intro x hx hxe
        simp only [List.map_cons, List.map_nil, List.mem_singleton,
          List.mem_cons, List.not_mem_nil, or_false] at hxe
        rw [hxe] at hx
        exact hp hx
      · intro g2 hg2
        rcases List.mem_append.mp hg2 with hg2 | hg2
        · exact ⟨fun x hx => List.mem_append.mpr (Or.inl ((hg g2 hg2).1 x hx)),
            (hg g2 hg2).2⟩
        · rw [List.mem_singleton.mp hg2]
          refine ⟨fun x hx => ?_, by simp⟩
          rw [List.mem_singleton.mp hx]
          simp

theorem groupByLevel_spec (levels : List (String × ℕ))
    (hnd : (levels.map Prod.fst).Nodup) :
    ((groupByLevel levels).map Prod.fst).Nodup
      ∧ ∀ g ∈ groupByLevel levels, (∀ x ∈ g.2, (x, g.1) ∈ levels) ∧ g.2.Nodup := by
  have h := gbl_aux levels levels [] [] rfl hnd (by simp) (by simp)
  rw [groupByLevel]
  exact h

theorem groupByLevel_pairwise_disjoint (levels : List (String × ℕ))
    (hnd : (levels.map Prod.fst).Nodup) :
    (groupByLevel levels).Pairwise (fun g g2 => ∀ x ∈ g.2, x ∉ g2.2) := by
  have hkeys := (groupByLevel_spec levels hnd).1
  have hmem := (groupByLevel_spec levels hnd).2
  have hpw : (groupByLevel levels).Pairwise (fun g g2 => g.1 ≠ g2.1) := by
    rw [List.Nodup, List.pairwise_map] at hkeys
    exact hkeys
  refine hpw.imp_of_mem ?_
  intro g g2 hgm hg2m hne x hx hx2
  have h1 : (x, g.1) ∈ levels := (hmem g hgm).1 x hx
  have h2 : (x, g2.1) ∈ levels := (hmem g2 hg2m).1 x hx2
  exact hne (nodup_keys_functional levels hnd x g.1 g2.1 h1 h2)

theorem recGet_foldl_recSet_not_mem {α V : Type} (key : α → String) (val : α → V)
    (l : List α) (m : List (String × V)) (x : String) (hx : x ∉ l.map key) :
    recGet (l.foldl (fun acc a => recSet acc (key a) (val a)) m) x = recGet m x := by
  induction l generalizing m with
  | nil => rfl
  | cons a l ih =>
    rw [List.map_cons, List.mem_cons] at hx
    push_neg at hx
    rw [List.foldl_cons, ih _ hx.2, recGet_recSet_ne m (key a) x (val a) hx.1]

theorem recGet_foldl_recSet_mem {α V : Type} (key : α → String) (val : α → V)
    (l : List α) (m : List (String × V)) (hnd : (l.map key).Nodup)
    (a : α) (ha : a ∈ l) :
    recGet (l.foldl (fun acc b => recSet acc (key b) (val b)) m) (key a)
      = some (val a) := by
  induction l generalizing m with
  | nil => simp at ha
  | cons b l ih =>
    rw [List.map_cons, List.nodup_cons] at hnd
    rw [List.foldl_cons]
    rcases List.mem_cons.mp ha with hab | ha2
    · subst hab
      rw [recGet_foldl_recSet_not_mem key val l _ (key a) hnd.1]
      exact recGet_recSet_self m (key a) (val a)
    · exact ih _ hnd.2 ha2

theorem placeLevel_get_of_not_mem (pos : List (String × Pt)) (level : ℕ)
    (nodeIds : List String) (levelHeight nodeSpacing : ℚ) (x : String)
    (hx : x ∉ nodeIds) :
    recGet (placeLevel pos level nodeIds levelHeight nodeSpacing) x
      = recGet pos x := by
  rw [placeLevel]
  apply recGet_foldl_recSet_not_mem (fun ie : ℕ × String => ie.2)
  rw [show nodeIds.enum.map (fun ie : ℕ × String => ie.2) = nodeIds from
    List.enum_map_snd nodeIds]
  exact hx

theorem placeLevel_get_of_mem (pos : List (String × Pt)) (level : ℕ)
    (nodeIds : List String) (levelHeight nodeSpacing : ℚ)
    (hnd : nodeIds.Nodup) (i : ℕ) (hi : i < nodeIds.length) :
    recGet (placeLevel pos level nodeIds levelHeight nodeSpacing)
        (nodeIds.get ⟨i, hi⟩)
      = some ⟨-(((nodeIds.length : ℚ) - 1) * nodeSpacing) / 2
            + (i : ℚ) * nodeSpacing + 400,
          (level : ℚ) * levelHeight + 50⟩ := by
  rw [placeLevel]
  have hmem : (i, nodeIds.get ⟨i, hi⟩) ∈ nodeIds.enum := by
    rw [List.mk_mem_enum_iff_getElem?]
    exact List.getElem?_eq_getElem hi
  have h := recGet_foldl_recSet_mem (fun ie : ℕ × String => ie.2)
    (fun ie => (⟨-(((nodeIds.length : ℚ) - 1) * nodeSpacing) / 2
        + (ie.1 : ℚ) * nodeSpacing + 400,
      (level : ℚ) * levelHeight + 50⟩ : Pt))
    nodeIds.enum pos
    (by rw [show nodeIds.enum.map (fun ie : ℕ × String => ie.2) = nodeIds from
      List.enum_map_snd nodeIds]; exact hnd)
    (i, nodeIds.get ⟨i, hi⟩) hmem
  exact h

theorem hier_fold_get_not_mem (levelHeight nodeSpacing : ℚ) :
    ∀ (groups : List (ℕ × List String)) (pos : List (String × Pt)) (x : String),
      (∀ g ∈ groups, x ∉ g.2) →
      recGet (groups.foldl
          (fun p gg => placeLevel p gg.1 gg.2 levelHeight nodeSpacing) pos) x
        = recGet pos x := by
  intro groups
  induction groups with
  | nil => intro pos x _; rfl
  | cons g0 groups ih =>
    intro pos x hx
    rw [List.foldl_cons, ih _ x (fun g2 h2 => hx g2 (List.mem_cons_of_mem g0 h2)),
      placeLevel_get_of_not_mem pos g0.1 g0.2 levelHeight nodeSpacing x
        (hx g0 (List.mem_cons_self g0 groups))]

theorem hier_fold_get (levelHeight nodeSpacing : ℚ) :
    ∀ (groups : List (ℕ × List String)) (pos : List (String × Pt)),
      (∀ g ∈ groups, g.2.Nodup) →
      groups.Pairwise (fun g g2 => ∀ x ∈ g.2, x ∉ g2.2) →
      ∀ g ∈ groups, ∀ (i : ℕ) (hi : i < g.2.length),
        recGet (groups.foldl
            (fun p gg => placeLevel p gg.1 gg.2 levelHeight nodeSpacing) pos)
            (g.2.get ⟨i, hi⟩)
          = some ⟨-(((g.2.length : ℚ) - 1) * nodeSpacing) / 2
                + (i : ℚ) * nodeSpacing + 400,
              (g.1 : ℚ) * levelHeight + 50⟩ := by
  intro groups
  induction groups with
  | nil => intro pos _ _ g hg; simp at hg
  | cons g0 groups ih =>
    intro pos hnd hpw g hg i hi
    rw [List.foldl_cons]
    rcases List.mem_cons.mp hg with hgg | hgtail
    · subst hgg
      have hid : g.2.get ⟨i, hi⟩ ∈ g.2 := List.get_mem _ _ _
      rw [hier_fold_get_not_mem levelHeight nodeSpacing groups _ _
        (fun g2 hg2 => (List.pairwise_cons.mp hpw).1 g2 hg2 _ hid)]
      exact placeLevel_get_of_mem pos g.1 g.2 levelHeight nodeSpacing
        (hnd g (List.mem_cons_self g groups)) i hi
    · exact ih _ (fun g2 h2 => hnd g2 (List.mem_cons_of_mem g0 h2))
        (List.pairwise_cons.mp hpw).2 g hgtail i hi

/-- C6: within each assigned level, the node at index `i` of the level's
grouping order is placed at
`x = -((count-1)*nodeSpacing)/2 + i*nodeSpacing + 400` and
`y = level*levelHeight + 50`; for nodes `[A,B,C]` with edges
`[(A,B),(B,C)]` and defaults this gives `A:(400,50)`, `B:(400,200)`,
`C:(400,350)`. -/
theorem c6_hier_positions (nodes : List NodeRef) (connections : List EdgeRef)
    (levelHeight nodeSpacing : ℚ) :
    (∀ g ∈ hierGroups nodes connections, ∀ (i : ℕ) (hi : i < g.2.length),
        recGet (applyHierarchicalLayout nodes connections levelHeight nodeSpacing)
            (g.2.get ⟨i, hi⟩)
          = some ⟨-(((g.2.length : ℚ) - 1) * nodeSpacing) / 2
                + (i : ℚ) * nodeSpacing + 400,
              (g.1 : ℚ) * levelHeight + 50⟩)
      ∧ (recGet (applyHierarchicalLayout
            [(⟨("A"), ⟨0, 0⟩⟩ : NodeRef), ⟨("B"), ⟨0, 0⟩⟩, ⟨("C"), ⟨0, 0⟩⟩]
            [⟨("A"), ("B")⟩, ⟨("B"), ("C")⟩] 150 200) ("A") = some ⟨400, 50⟩
          ∧ recGet (applyHierarchicalLayout
              [(⟨("A"), ⟨0, 0⟩⟩ : NodeRef), ⟨("B"), ⟨0, 0⟩⟩, ⟨("C"), ⟨0, 0⟩⟩]
              [⟨("A"), ("B")⟩, ⟨("B"), ("C")⟩] 150 200) ("B") = some ⟨400, 200⟩
          ∧ recGet (applyHierarchicalLayout
              [(⟨("A"), ⟨0, 0⟩⟩ : NodeRef), ⟨("B"), ⟨0, 0⟩⟩, ⟨("C"), ⟨0, 0⟩⟩]
              [⟨("A"), ("B")⟩, ⟨("B"), ("C")⟩] 150 200) ("C") = some ⟨400, 350⟩) := by
  constructor
  · intro g hg i hi
    have hlnd : ((backfillLevels nodes (bfsLevels nodes connections)).map
        Prod.fst).Nodup :=
      backfill_nodup nodes _ (bfsLevels_spec nodes connections).2.2
    have hspec := groupByLevel_spec _ hlnd
    have hpw := groupByLevel_pairwise_disjoint _ hlnd
    have hg2 : g ∈ groupByLevel (backfillLevels nodes (bfsLevels nodes connections)) := hg
    rw [applyHierarchicalLayout]
    exact hier_fold_get levelHeight nodeSpacing (hierGroups nodes connections) []
      (fun g3 hg3 => (hspec.2 g3 hg3).2) hpw g hg i hi
  · refine ⟨?_, ?_, ?_⟩ <;>
      norm_num +decide [applyHierarchicalLayout, hierGroups, groupByLevel,
        backfillLevels, bfsLevels, bfsAux, rootNodes, childrenOf, placeLevel,
        recSet, recGet, List.enum, List.enumFrom]

theorem c6_hier_positions_witness :
    (0, [("A")]) ∈ hierGroups
        [(⟨("A"), ⟨0, 0⟩⟩ : NodeRef), ⟨("B"), ⟨0, 0⟩⟩, ⟨("C"), ⟨0, 0⟩⟩]
        [⟨("A"), ("B")⟩, ⟨("B"), ("C")⟩]
      ∧ recGet (applyHierarchicalLayout
          [(⟨("A"), ⟨0, 0⟩⟩ : NodeRef), ⟨("B"), ⟨0, 0⟩⟩, ⟨("C"), ⟨0, 0⟩⟩]
          [⟨("A"), ("B")⟩, ⟨("B"), ("C")⟩] 150 200) ("A")
        = some ⟨-(((1 : ℚ) - 1) * 200) / 2 + 0 * 200 + 400, 0 * 150 + 50⟩ := by
  refine ⟨by decide, ?_⟩
  exact (c6_hier_positions
    [(⟨("A"), ⟨0, 0⟩⟩ : NodeRef), ⟨("B"), ⟨0, 0⟩⟩, ⟨("C"), ⟨0, 0⟩⟩]
    [⟨("A"), ("B")⟩, ⟨("B"), ("C")⟩] 150 200).1 (0, [("A")]) (by decide) 0
    (by decide)
